import Mathlib

/-!
Verification of the weighted-graph shortest-path engine (`task_3.py`):
an adjacency-list graph with `add_edge`, Dijkstra's algorithm over a
lazy-deletion binary min-heap (CPython `heapq` semantics), and path
reconstruction from recorded predecessors.

Python data is embedded as follows:
* `dict` becomes an insertion-ordered association list (`dget` / `dset`),
  matching CPython 3.7+ ordering semantics; a missing-key subscript is a
  `KeyError`, modelled by `Option` / `RunResult.keyError`.
* `float("inf")` and int distances become `DistVal := WithTop Nat`
  (all claims restrict weights to non-negative integers).
* the `heapq` module's `heappush` / `heappop` (with `_siftdown` / `_siftup`)
  are translated from the CPython implementation; the bounded loops are
  expressed with an explicit fuel argument that dominates the loop count.
* the `while heap:` loop of `dijkstra` advances one iteration per
  `dijkstraStep`; `dijkstraLoop` iterates it with fuel `adjSize g + 2`,
  which is proved sufficient below.
-/

abbrev Node := String

abbrev DistVal := WithTop Nat

/-- `@dataclass(order=True)` with `node: str = field(compare=False)`:
comparison looks only at `distance`. -/
structure HeapItem where
  distance : DistVal
  node : Node
deriving DecidableEq, Repr

instance : Inhabited HeapItem := ⟨⟨0, ""⟩⟩

/-- `a < b` for `HeapItem` (dataclass order): compares `distance` only. -/
def itemLt (a b : HeapItem) : Bool := a.distance < b.distance

/-- `d[k]` read on a Python dict: `none` models a `KeyError`. -/
def dget {α : Type} : List (Node × α) → Node → Option α
  | [], _ => none
  | (k', v) :: t, k => if k' = k then some v else dget t k

/-- `d[k] = v` on a Python dict: overwrite in place, else append (3.7+ order). -/
def dset {α : Type} : List (Node × α) → Node → α → List (Node × α)
  | [], k, v => [(k, v)]
  | (k', v') :: t, k, v => if k' = k then (k', v) :: t else (k', v') :: dset t k v

/-- `d.get(k, dflt)`. -/
def dgetD {α : Type} (d : List (Node × α)) (k : Node) (dflt : α) : α :=
  (dget d k).getD dflt

def dkeys {α : Type} (d : List (Node × α)) : List Node := d.map Prod.fst

/-- `heapq._siftdown(heap, startpos, pos)` loop body; `newitem = heap[pos]`
was captured by the caller.  Each iteration moves to `(pos - 1) / 2 < pos`,
so the loop runs at most `pos` times and `fuel = pos` suffices; the fuel-0
fallthrough equals the loop-exit assignment. -/
def siftdownAux : Nat → List HeapItem → HeapItem → Nat → Nat → List HeapItem
  | 0, heap, newitem, _, pos => heap.set pos newitem
  | fuel + 1, heap, newitem, startpos, pos =>
    if startpos < pos then
      let parentpos := (pos - 1) / 2
      let parent := heap.getD parentpos default
      if itemLt newitem parent then
        siftdownAux fuel (heap.set pos parent) newitem startpos parentpos
      else heap.set pos newitem
    else heap.set pos newitem

/-- `heapq._siftdown(heap, startpos, pos)`. -/
def siftdown (heap : List HeapItem) (startpos pos : Nat) : List HeapItem :=
  siftdownAux pos heap (heap.getD pos default) startpos pos

/-- `heapq.heappush(heap, item)`. -/
def heappush (heap : List HeapItem) (item : HeapItem) : List HeapItem :=
  siftdown (heap ++ [item]) 0 heap.length

/-- `heapq._siftup(heap, pos)` loop body; `newitem = heap[pos]` captured by
the caller.  `pos` strictly increases and stays below `len(heap)`, so
`fuel = len(heap)` suffices; the fuel-0 fallthrough equals the loop exit. -/
def siftupAux : Nat → List HeapItem → HeapItem → Nat → Nat → List HeapItem
  | 0, heap, newitem, startpos, pos => siftdown (heap.set pos newitem) startpos pos
  | fuel + 1, heap, newitem, startpos, pos =>
    let endpos := heap.length
    let childpos := 2 * pos + 1
    if childpos < endpos then
      let rightpos := childpos + 1
      let childpos :=
        if rightpos < endpos &&
            !(itemLt (heap.getD childpos default) (heap.getD rightpos default)) then
          rightpos
        else childpos
      siftupAux fuel (heap.set pos (heap.getD childpos default)) newitem startpos childpos
    else siftdown (heap.set pos newitem) startpos pos

/-- `heapq._siftup(heap, pos)`. -/
def siftup (heap : List HeapItem) (pos : Nat) : List HeapItem :=
  siftupAux heap.length heap (heap.getD pos default) pos pos

/-- `heapq.heappop(heap)`; `none` models the empty-heap `IndexError`
(never reached: the source pops only under `while heap:`). -/
def heappop (heap : List HeapItem) : Option (HeapItem × List HeapItem) :=
  match heap.getLast? with
  | none => none
  | some lastelt =>
    let rest := heap.dropLast
    if rest.isEmpty then some (lastelt, rest)
    else some (rest.headD default, siftup (rest.set 0 lastelt) 0)

structure Graph where
  adjacency : List (Node × List (Node × Nat))
deriving DecidableEq

/-- `self.adjacency.setdefault(key, []).append(entry)`. -/
def setdefaultAppend : List (Node × List (Node × Nat)) → Node → Node × Nat →
    List (Node × List (Node × Nat))
  | [], k, e => [(k, [e])]
  | (k', l) :: t, k, e =>
    if k' = k then (k', l ++ [e]) :: t else (k', l) :: setdefaultAppend t k e

def Graph.add_edge (g : Graph) (source target : Node) (weight : Nat)
    (bidirectional : Bool) : Graph :=
  let adj := setdefaultAppend g.adjacency source (target, weight)
  ⟨if bidirectional then setdefaultAppend adj target (source, weight) else adj⟩

/-- `self.adjacency.get(current_node, [])`. -/
def Graph.adjGet (g : Graph) (n : Node) : List (Node × Nat) :=
  (dget g.adjacency n).getD []

/-- Python dicts have no duplicate keys; every graph buildable through
`add_edge` satisfies this. -/
def Graph.WF (g : Graph) : Prop := (dkeys g.adjacency).Nodup

/-- The mutable state of one run of `Graph.dijkstra`. -/
structure DState where
  dist : List (Node × DistVal)
  prev : List (Node × Option Node)
  heap : List HeapItem
  visited : List Node
deriving DecidableEq

/-- The inner `for neighbor, weight in self.adjacency.get(current_node, []):`
loop; `none` models a `KeyError` on `distances[current_node]` or
`distances[neighbor]`. -/
def relaxFold (current : Node) :
    List (Node × Nat) → List (Node × DistVal) → List (Node × Option Node) →
    List HeapItem →
    Option (List (Node × DistVal) × List (Node × Option Node) × List HeapItem)
  | [], dist, prev, heap => some (dist, prev, heap)
  | (neighbor, weight) :: rest, dist, prev, heap =>
    match dget dist current with
    | none => none
    | some dc =>
      let new := dc + (weight : DistVal)
      match dget dist neighbor with
      | none => none
      | some dn =>
        if new < dn then
          relaxFold current rest (dset dist neighbor new)
            (dset prev neighbor (some current)) (heappush heap ⟨new, neighbor⟩)
        else relaxFold current rest dist prev heap

inductive StepRes where
  | done (dist : List (Node × DistVal)) (prev : List (Node × Option Node))
  | next (st : DState)
  | err
deriving DecidableEq

/-- One iteration of the `while heap:` loop of `Graph.dijkstra`. -/
def dijkstraStep (g : Graph) (st : DState) : StepRes :=
  match heappop st.heap with
  | none => .done st.dist st.prev
  | some (item, heap') =>
    let current := item.node
    if current ∈ st.visited then .next ⟨st.dist, st.prev, heap', st.visited⟩
    else
      match relaxFold current (g.adjGet current) st.dist st.prev heap' with
      | none => .err
      | some (dist', prev', heap'') =>
        .next ⟨dist', prev', heap'', st.visited ++ [current]⟩

inductive RunResult (α : Type) where
  | ok (a : α)
  | keyError
  | fuelOut
deriving DecidableEq

def dijkstraLoop (g : Graph) :
    Nat → DState → RunResult (List (Node × DistVal) × List (Node × Option Node))
  | 0, _ => .fuelOut
  | fuel + 1, st =>
    match dijkstraStep g st with
    | .done d p => .ok (d, p)
    | .err => .keyError
    | .next st' => dijkstraLoop g fuel st'

/-- The state after lines 25-29 of `dijkstra`. -/
def initState (g : Graph) (start : Node) : DState :=
  ⟨dset (g.adjacency.map fun p => (p.1, (⊤ : DistVal))) start 0,
   g.adjacency.map fun p => (p.1, (none : Option Node)),
   [⟨0, start⟩],
   []⟩

/-- Total number of adjacency entries (edges as stored). -/
def adjSize (g : Graph) : Nat := (g.adjacency.map fun p => p.2.length).sum

/-- `Graph.dijkstra(start)`.  Each loop iteration strictly decreases
`heap length + untraversed adjacency entries`, which starts at
`1 + adjSize g`, so fuel `adjSize g + 2` is sufficient (proved below). -/
def Graph.dijkstra (g : Graph) (start : Node) :
    RunResult (List (Node × DistVal) × List (Node × Option Node)) :=
  dijkstraLoop g (adjSize g + 2) (initState g start)

/-- The `while current_node is not None:` loop of `shortest_path`,
accumulating `path`; `keyError` models `previous_nodes[current_node]`
missing.  The walk visits pairwise-distinct keys of `prev`, so fuel
`prev.length + 1` is sufficient (proved below). -/
def walkAux : Nat → List (Node × Option Node) → Option Node → List Node →
    RunResult (List Node)
  | _, _, none, path => .ok path
  | 0, _, some _, _ => .fuelOut
  | fuel + 1, prev, some c, path =>
    match dget prev c with
    | none => .keyError
    | some nxt => walkAux fuel prev nxt (path ++ [c])

/-- `Graph.shortest_path(start, end)` (`end` is a Lean keyword; `fin` here). -/
def Graph.shortest_path (g : Graph) (start fin : Node) : RunResult (List Node) :=
  match g.dijkstra start with
  | .ok (dist, prev) =>
    if dgetD dist fin ⊤ = ⊤ then .ok []
    else
      match walkAux (prev.length + 1) prev (some fin) [] with
      | .ok path => .ok path.reverse
      | .keyError => .keyError
      | .fuelOut => .fuelOut
  | .keyError => .keyError
  | .fuelOut => .fuelOut

/-- The sample dataset of `GraphDemo._load_edges`. -/
def demoEdges : List (Node × Node × Nat) :=
  [("A", "B", 4), ("A", "C", 2), ("B", "C", 5), ("B", "D", 10),
   ("C", "E", 3), ("E", "D", 4), ("D", "F", 11)]

/-- The demo graph: every sample edge added with `bidirectional=True`. -/
def demoGraph : Graph :=
  demoEdges.foldl (fun g e => g.add_edge e.1 e.2.1 e.2.2 true) ⟨[]⟩

/-! ### Specification-side notions: edges, paths, shortest distances -/

/-- `(v, w)` is a stored edge out of `u`. -/
def hasEdge (g : Graph) (u v : Node) (w : Nat) : Prop := (v, w) ∈ g.adjGet u

/-- A walk in the graph from `s` to `t` of total weight `c`. -/
inductive IsPath (g : Graph) : Node → Node → Nat → Prop
  | nil (u : Node) : IsPath g u u 0
  | cons {u v t : Node} {w c : Nat} :
      hasEdge g u v w → IsPath g v t c → IsPath g u t (w + c)

/-- A node sequence whose consecutive pairs are stored edges, with total
weight `c` (`[u]` alone is a path of weight 0). -/
inductive IsPathList (g : Graph) : List Node → Nat → Prop
  | single (u : Node) : IsPathList g [u] 0
  | cons {u v : Node} {rest : List Node} {w c : Nat} :
      hasEdge g u v w → IsPathList g (v :: rest) c →
      IsPathList g (u :: v :: rest) (w + c)

/-- `d` is the true shortest-path distance from `s` to `t`: a lower bound on
every walk weight, and attained by a walk unless `d = ⊤`. -/
def IsShortestDist (g : Graph) (s t : Node) (d : DistVal) : Prop :=
  (∀ c : Nat, IsPath g s t c → d ≤ (c : DistVal)) ∧
  (d = ⊤ ∨ ∃ c : Nat, d = (c : DistVal) ∧ IsPath g s t c)

/-- States of the `while heap:` loop reachable from `st` by whole iterations. -/
inductive Reaches (g : Graph) : DState → DState → Prop
  | refl (st : DState) : Reaches g st st
  | tail {a b c : DState} : Reaches g a b → dijkstraStep g b = .next c → Reaches g a c

/-- Every stored neighbor target is itself an adjacency key (true of any
graph built only with `bidirectional=True`, and of the empty graph). -/
def Graph.Closed (g : Graph) : Prop :=
  ∀ p ∈ g.adjacency, ∀ e ∈ p.2, (dget g.adjacency e.1).isSome

/-! ### Binary-heap order facts -/

def heapLe (a b : HeapItem) : Prop := a.distance ≤ b.distance

/-- CPython heap invariant: every non-root entry is `≥` its parent. -/
def heapInvariant (h : List HeapItem) : Prop :=
  ∀ i, 0 < i → i < h.length →
    heapLe (h.getD ((i - 1) / 2) default) (h.getD i default)

/-- Heap order except for pairs touching the hole `pos`. -/
def HeapExceptAt (h : List HeapItem) (pos : Nat) : Prop :=
  ∀ i, 0 < i → i < h.length → i ≠ pos → (i - 1) / 2 ≠ pos →
    heapLe (h.getD ((i - 1) / 2) default) (h.getD i default)

/-- `x` is `≤` every child of the hole `pos`. -/
def ChildrenGE (h : List HeapItem) (pos : Nat) (x : HeapItem) : Prop :=
  ∀ c, 0 < c → c < h.length → (c - 1) / 2 = pos → heapLe x (h.getD c default)

/-- The hole's parent is `≤` every child of the hole. -/
def GrandOK (h : List HeapItem) (pos : Nat) : Prop :=
  0 < pos → ∀ c, 0 < c → c < h.length → (c - 1) / 2 = pos →
    heapLe (h.getD ((pos - 1) / 2) default) (h.getD c default)

/-! ### Termination measure -/

/-- Adjacency entries of not-yet-visited keys. -/
def remAdj (g : Graph) (visited : List Node) : Nat :=
  ((g.adjacency.filter fun p => decide (p.1 ∉ visited)).map fun p => p.2.length).sum

/-- Strictly decreases at every `next` iteration of the loop. -/
def stMeasure (g : Graph) (st : DState) : Nat := st.heap.length + remAdj g st.visited

/-! ### The run invariant -/

/-- Everything that holds of every reachable state of one run of
`Graph.dijkstra g start`. -/
structure RunInv (g : Graph) (start : Node) (st : DState) : Prop where
  hheap : heapInvariant st.heap
  hdistkeys : ∀ v, (dget st.dist v).isSome ↔ ((dget g.adjacency v).isSome ∨ v = start)
  hprevkeys : ∀ v, (dget st.prev v).isSome ↔ (dget g.adjacency v).isSome
  hstart0 : dget st.dist start = some 0
  hprevstart : dget st.prev start =
    if (dget g.adjacency start).isSome then some none else none
  hitems : ∀ it ∈ st.heap, ∃ c : Nat, IsPath g start it.node c ∧ it.distance = (c : DistVal)
  hdistfin : ∀ v, ∀ c : Nat, dget st.dist v = some (c : DistVal) → IsPath g start v c
  hupper : ∀ it ∈ st.heap, dgetD st.dist it.node ⊤ ≤ it.distance
  hcover : ∀ v, ∀ c : Nat, v ∉ st.visited → dget st.dist v = some (c : DistVal) →
    ∃ it ∈ st.heap, it.node = v ∧ it.distance = (c : DistVal)
  hvshort : ∀ v ∈ st.visited, IsShortestDist g start v (dgetD st.dist v ⊤)
  hvfin : ∀ v ∈ st.visited, ∃ c : Nat, dget st.dist v = some (c : DistVal)
  hclosure : ∀ u ∈ st.visited, ∀ v w, (v, w) ∈ g.adjGet u →
    dgetD st.dist v ⊤ ≤ dgetD st.dist u ⊤ + (w : DistVal)
  hprevsome : ∀ v u, dget st.prev v = some (some u) → u ∈ st.visited ∧
    ∃ w, (v, w) ∈ g.adjGet u ∧ dgetD st.dist v ⊤ = dgetD st.dist u ⊤ + (w : DistVal)
  hprevidx : ∀ v u, dget st.prev v = some (some u) → v ∈ st.visited →
    st.visited.indexOf u < st.visited.indexOf v
  hprevnone : ∀ v, v ≠ start → dget st.prev v = some none → dget st.dist v = some ⊤
  hprevstartkey : ∀ v u, dget st.prev v = some (some u) → (dget g.adjacency start).isSome
  hvisnodup : st.visited.Nodup
  hvismem : ∀ v ∈ st.visited, (dget st.dist v).isSome
  hdistlen : st.dist.length ≤ g.adjacency.length + 1
  hprevlen : st.prev.length = g.adjacency.length

/-- Invariant carried through the relaxation `for` loop while visiting
`current`: `lst` is the tail of `current`'s adjacency list still to be
processed, and `vis` already contains `current`. -/
structure FoldInv (g : Graph) (start current : Node) (lst : List (Node × Nat))
    (vis : List Node) (dist : List (Node × DistVal))
    (prev : List (Node × Option Node)) (heap : List HeapItem) : Prop where
  hheap : heapInvariant heap
  hdistkeys : ∀ v, (dget dist v).isSome ↔ ((dget g.adjacency v).isSome ∨ v = start)
  hprevkeys : ∀ v, (dget prev v).isSome ↔ (dget g.adjacency v).isSome
  hstart0 : dget dist start = some 0
  hprevstart : dget prev start =
    if (dget g.adjacency start).isSome then some none else none
  hitems : ∀ it ∈ heap, ∃ c : Nat, IsPath g start it.node c ∧ it.distance = (c : DistVal)
  hdistfin : ∀ v, ∀ c : Nat, dget dist v = some (c : DistVal) → IsPath g start v c
  hupper : ∀ it ∈ heap, dgetD dist it.node ⊤ ≤ it.distance
  hcover : ∀ v, ∀ c : Nat, v ∉ vis → dget dist v = some (c : DistVal) →
    ∃ it ∈ heap, it.node = v ∧ it.distance = (c : DistVal)
  hvshort : ∀ v ∈ vis, IsShortestDist g start v (dgetD dist v ⊤)
  hvfin : ∀ v ∈ vis, ∃ c : Nat, dget dist v = some (c : DistVal)
  hclosure : ∀ u ∈ vis, ∀ v w, (v, w) ∈ g.adjGet u →
    ((u = current ∧ (v, w) ∈ lst) ∨ dgetD dist v ⊤ ≤ dgetD dist u ⊤ + (w : DistVal))
  hprevsome : ∀ v u, dget prev v = some (some u) → u ∈ vis ∧
    ∃ w, (v, w) ∈ g.adjGet u ∧ dgetD dist v ⊤ = dgetD dist u ⊤ + (w : DistVal)
  hprevidx : ∀ v u, dget prev v = some (some u) → v ∈ vis →
    vis.indexOf u < vis.indexOf v
  hprevnone : ∀ v, v ≠ start → dget prev v = some none → dget dist v = some ⊤
  hprevstartkey : ∀ v u, dget prev v = some (some u) → (dget g.adjacency start).isSome
  hvisnodup : vis.Nodup
  hvismem : ∀ v ∈ vis, (dget dist v).isSome
  hdistlen : dist.length ≤ g.adjacency.length + 1
  hprevlen : prev.length = g.adjacency.length
  hsub : ∀ e ∈ lst, e ∈ g.adjGet current
  hcur : current ∈ vis

/-! ### Concrete tables of the demo run -/

def demoDistTable : List (Node × DistVal) :=
  [("A", ((0 : Nat) : DistVal)), ("B", ((4 : Nat) : DistVal)),
   ("C", ((2 : Nat) : DistVal)), ("D", ((9 : Nat) : DistVal)),
   ("E", ((5 : Nat) : DistVal)), ("F", ((20 : Nat) : DistVal))]

def demoPrevTable : List (Node × Option Node) :=
  [("A", none), ("B", some "A"), ("C", some "A"), ("D", some "E"),
   ("E", some "C"), ("F", some "D")]

/-! ### Concrete and elementary claim theorems -/

/-- C3: on the demo graph (edges (A,B,4), (A,C,2), (B,C,5), (B,D,10),
(C,E,3), (E,D,4), (D,F,11), all bidirectional), `dijkstra("A")` yields
distances A=0, B=4, C=2, D=9, E=5, F=20, and `shortest_path("A","D")`
returns ["A","C","E","D"]. -/
theorem demo_dijkstra_distances_and_path :
    demoGraph.dijkstra "A" = .ok (demoDistTable, demoPrevTable) ∧
    demoGraph.shortest_path "A" "D" = .ok ["A", "C", "E", "D"] := by
  constructor <;> decide

/-- Counterexample to C2: on the graph with the single directed edge
(A, B, 1) — non-negative weights — `dijkstra("A")` raises `KeyError`
(at `distances[neighbor]`, since B is a neighbor target but not an
adjacency key), instead of terminating with full tables. -/
theorem dijkstra_target_only_neighbor_keyError :
    ((Graph.mk []).add_edge "A" "B" 1 false).dijkstra "A" = .keyError := by
  decide

/-- Counterexample to C7: on the empty graph with start "A", the returned
distance table is `[("A", 0)]`, not the empty table the claim asserts. -/
theorem dijkstra_empty_graph_nonempty_table :
    (Graph.mk []).dijkstra "A" = .ok ([("A", ((0 : Nat) : DistVal))], []) ∧
    (Graph.mk []).dijkstra "A" ≠ .ok ([], []) := by
  constructor <;> decide

/-- C7 (amended): on the empty graph, `dijkstra(start)` returns the
single-entry distance table `{start: 0}` and an empty predecessor table. -/
theorem dijkstra_empty_graph_start_table (start : Node) :
    (Graph.mk []).dijkstra start = .ok ([(start, ((0 : Nat) : DistVal))], []) := rfl

/-- Counterexample to C6: on the empty graph with start "A" the call
succeeds with distance table `{A: 0}`, but the returned predecessor table
is empty: it has no entry for the start at all (Python
`previous_nodes["A"]` would raise `KeyError`), rather than mapping the
start to `none`. -/
theorem dijkstra_unknown_start_no_prev_entry :
    (Graph.mk []).dijkstra "A" = .ok ([("A", ((0 : Nat) : DistVal))], []) ∧
    dget ([] : List (Node × Option Node)) "A" ≠ some none := by
  constructor <;> decide

/-- Counterexample to C4: on the empty graph, "A" is trivially reachable
from "A" (a zero-weight walk), yet `shortest_path("A","A")` raises
`KeyError` instead of returning a node sequence. -/
theorem shortest_path_trivial_reachable_keyError :
    IsPath (Graph.mk []) "A" "A" 0 ∧
    (Graph.mk []).shortest_path "A" "A" = .keyError :=
  ⟨IsPath.nil "A", by decide⟩

/-- Counterexample to C9: on the empty graph, node "A" has finite recorded
distance 0, yet following `previous_nodes` from "A" raises `KeyError`
immediately — the chain neither reaches `none` nor ends at the start. -/
theorem prev_walk_unknown_start_keyError :
    (Graph.mk []).dijkstra "A" = .ok ([("A", ((0 : Nat) : DistVal))], []) ∧
    walkAux 1 ([] : List (Node × Option Node)) (some "A") [] = .keyError := by
  constructor <;> decide

/-- C5: whenever `dijkstra(start)` returns tables in which the computed
distance of `e` (defaulting to infinity when `e` is unknown) is infinite,
`shortest_path(start, e)` returns the empty sequence and raises nothing. -/
theorem shortest_path_infinite_distance_empty (g : Graph) (s e : Node)
    (d : List (Node × DistVal)) (p : List (Node × Option Node))
    (h1 : g.dijkstra s = .ok (d, p)) (h2 : dgetD d e ⊤ = ⊤) :
    g.shortest_path s e = .ok [] := by
  unfold Graph.shortest_path
  rw [h1]
  simp [h2]

/-- Witness for C5 at the demo graph and the unknown target "Z". -/
theorem shortest_path_infinite_distance_empty_witness :
    demoGraph.shortest_path "A" "Z" = .ok [] :=
  shortest_path_infinite_distance_empty demoGraph "A" "Z" demoDistTable
    demoPrevTable (by decide) (by decide)

/-- C8: `dijkstra` is a pure function of the graph and the start node:
two runs on identical inputs return identical distance and predecessor
tables. -/
theorem dijkstra_deterministic (g : Graph) (s : Node)
    (r₁ r₂ : RunResult (List (Node × DistVal) × List (Node × Option Node)))
    (h1 : g.dijkstra s = r₁) (h2 : g.dijkstra s = r₂) : r₁ = r₂ :=
  h1 ▸ h2 ▸ rfl

/-- Witness for C8 at the demo graph. -/
theorem dijkstra_deterministic_witness :
    (RunResult.ok (demoDistTable, demoPrevTable)) = .ok (demoDistTable, demoPrevTable) :=
  dijkstra_deterministic demoGraph "A" _ _ (by decide) (by decide)

/-! ### List helper lemmas -/

theorem getD_set_self {α : Type} (l : List α) (i : Nat) (a d : α)
    (h : i < l.length) : (l.set i a).getD i d = a := by
  rw [List.getD_eq_getElem?_getD, List.getElem?_set_self h]
  rfl

theorem getD_set_ne {α : Type} (l : List α) (i j : Nat) (a d : α)
    (h : i ≠ j) : (l.set i a).getD j d = l.getD j d := by
  rw [List.getD_eq_getElem?_getD, List.getElem?_set_ne h, ← List.getD_eq_getElem?_getD]

theorem getD_append_left {α : Type} (l l' : List α) (i : Nat) (d : α)
    (h : i < l.length) : (l ++ l').getD i d = l.getD i d := by
  rw [List.getD_eq_getElem?_getD, List.getElem?_append_left h, ← List.getD_eq_getElem?_getD]

theorem getD_append_length {α : Type} (l : List α) (x d : α) :
    (l ++ [x]).getD l.length d = x := by
  rw [List.getD_eq_getElem?_getD]
  rw [List.getElem?_append_right (Nat.le_refl _)]
  simp

theorem getD_mem {α : Type} (l : List α) (i : Nat) (d : α) (h : i < l.length) :
    l.getD i d ∈ l := by
  rw [List.getD_eq_getElem?_getD, List.getElem?_eq_getElem h]
  exact List.getElem_mem h

theorem mem_getD {α : Type} (l : List α) (x : α) (d : α) (h : x ∈ l) :
    ∃ i, i < l.length ∧ l.getD i d = x := by
  obtain ⟨i, hi, hx⟩ := List.getElem_of_mem h
  refine ⟨i, hi, ?_⟩
  rw [List.getD_eq_getElem?_getD, List.getElem?_eq_getElem hi]
  exact hx

theorem set_getD_self {α : Type} :
    ∀ (l : List α) (i : Nat) (d : α), i < l.length → l.set i (l.getD i d) = l
  | [], i, d, h => absurd h (by simp)
  | c :: t, 0, d, _ => rfl
  | c :: t, i + 1, d, h =>
    congrArg (c :: ·) (set_getD_self t i d (by simpa using h))

theorem getD_dropLast {α : Type} (l : List α) (i : Nat) (d : α)
    (h : i < l.length - 1) : l.dropLast.getD i d = l.getD i d := by
  rw [List.getD_eq_getElem?_getD, List.getD_eq_getElem?_getD, List.getElem?_dropLast,
    if_pos h]

theorem perm_set_pair {α : Type} :
    ∀ (t : List α) (i : Nat) (a b : α), i < t.length →
      (a :: t.set i b).Perm (b :: t.set i a)
  | [], i, _, _, h => absurd h (by simp)
  | c :: t', 0, a, b, _ => by
    simpa using List.Perm.swap b a t'
  | c :: t', i + 1, a, b, h => by
    have ih := perm_set_pair t' i a b (by simpa using h)
    show (a :: c :: t'.set i b).Perm (b :: c :: t'.set i a)
    have s1 : (a :: c :: t'.set i b).Perm (c :: a :: t'.set i b) := List.Perm.swap c a _
    have s2 : (c :: a :: t'.set i b).Perm (c :: b :: t'.set i a) := ih.cons c
    have s3 : (c :: b :: t'.set i a).Perm (b :: c :: t'.set i a) := List.Perm.swap b c _
    exact (s1.trans s2).trans s3

theorem perm_cons_set {α : Type} :
    ∀ (l : List α) (i : Nat) (a d : α), i < l.length →
      (l.getD i d :: l.set i a).Perm (a :: l)
  | [], i, _, _, h => absurd h (by simp)
  | c :: t, 0, a, d, _ => by
    simpa using List.Perm.swap a c t
  | c :: t, i + 1, a, d, h => by
    have ih := perm_cons_set t i a d (by simpa using h)
    show (t.getD i d :: c :: t.set i a).Perm (a :: c :: t)
    have s1 : (t.getD i d :: c :: t.set i a).Perm (c :: t.getD i d :: t.set i a) :=
      List.Perm.swap c (t.getD i d) _
    have s2 : (c :: t.getD i d :: t.set i a).Perm (c :: a :: t) := ih.cons c
    have s3 : (c :: a :: t).Perm (a :: c :: t) := List.Perm.swap a c t
    exact (s1.trans s2).trans s3

theorem set_set_perm {α : Type} (l : List α) (i j : Nat) (a d : α)
    (hi : i < l.length) (hj : j < l.length) (hij : i ≠ j) :
    ((l.set i (l.getD j d)).set j a).Perm (l.set i a) := by
  have hj' : j < (l.set i (l.getD j d)).length := by simpa using hj
  have h1 := perm_cons_set (l.set i (l.getD j d)) j a d hj'
  rw [getD_set_ne l i j _ d hij] at h1
  have h2 : (a :: l.set i (l.getD j d)).Perm (l.getD j d :: l.set i a) :=
    perm_set_pair l i a (l.getD j d) hi
  exact List.Perm.cons_inv (h1.trans h2)

/-! ### Heap: length and permutation facts -/

theorem siftdownAux_length (fuel : Nat) :
    ∀ (h : List HeapItem) (x : HeapItem) (sp pos : Nat),
      (siftdownAux fuel h x sp pos).length = h.length := by
  induction fuel with
  | zero => intro h x sp pos; simp [siftdownAux]
  | succ fuel ih =>
    intro h x sp pos
    rw [siftdownAux]
    by_cases h1 : sp < pos
    · simp only [if_pos h1]
      by_cases h2 : itemLt x (h.getD ((pos - 1) / 2) default)
      · simp only [if_pos h2, ih, List.length_set]
      · simp only [if_neg h2, List.length_set]
    · simp only [if_neg h1, List.length_set]

theorem siftdown_length (h : List HeapItem) (sp pos : Nat) :
    (siftdown h sp pos).length = h.length := siftdownAux_length ..

theorem heappush_length (h : List HeapItem) (x : HeapItem) :
    (heappush h x).length = h.length + 1 := by
  unfold heappush
  rw [siftdown_length]
  simp

theorem siftupAux_length (fuel : Nat) :
    ∀ (h : List HeapItem) (x : HeapItem) (sp pos : Nat),
      (siftupAux fuel h x sp pos).length = h.length := by
  induction fuel with
  | zero => intro h x sp pos; simp [siftupAux, siftdown_length]
  | succ fuel ih =>
    intro h x sp pos
    rw [siftupAux]
    by_cases h1 : 2 * pos + 1 < h.length
    · simp only [if_pos h1, ih, List.length_set]
    · simp only [if_neg h1, siftdown_length, List.length_set]

theorem siftup_length (h : List HeapItem) (pos : Nat) :
    (siftup h pos).length = h.length := siftupAux_length ..

theorem siftdownAux_perm (fuel : Nat) :
    ∀ (h : List HeapItem) (x : HeapItem) (sp pos : Nat), pos < h.length →
      (siftdownAux fuel h x sp pos).Perm (h.set pos x) := by
  induction fuel with
  | zero => intro h x sp pos _; exact List.Perm.refl _
  | succ fuel ih =>
    intro h x sp pos hpos
    rw [siftdownAux]
    by_cases h1 : sp < pos
    · simp only [if_pos h1]
      by_cases h2 : itemLt x (h.getD ((pos - 1) / 2) default)
      · simp only [if_pos h2]
        have hpp : (pos - 1) / 2 < (h.set pos (h.getD ((pos - 1) / 2) default)).length := by
          rw [List.length_set]; omega
        have := ih (h.set pos (h.getD ((pos - 1) / 2) default)) x sp ((pos - 1) / 2) hpp
        refine this.trans ?_
        exact set_set_perm h pos ((pos - 1) / 2) x default hpos (by omega) (by omega)
      · simp only [if_neg h2]; exact List.Perm.refl _
    · simp only [if_neg h1]; exact List.Perm.refl _

theorem siftdown_perm (h : List HeapItem) (sp pos : Nat) (hpos : pos < h.length) :
    (siftdown h sp pos).Perm (h.set pos (h.getD pos default)) :=
  siftdownAux_perm pos h (h.getD pos default) sp pos hpos

theorem siftupAux_perm (fuel : Nat) :
    ∀ (h : List HeapItem) (x : HeapItem) (sp pos : Nat), pos < h.length →
      (siftupAux fuel h x sp pos).Perm (h.set pos x) := by
  induction fuel with
  | zero =>
    intro h x sp pos hpos
    show (siftdown (h.set pos x) sp pos).Perm (h.set pos x)
    have hp : pos < (h.set pos x).length := by simpa using hpos
    have := siftdown_perm (h.set pos x) sp pos hp
    rw [getD_set_self h pos x default hpos] at this
    rw [List.set_set] at this
    exact this
  | succ fuel ih =>
    intro h x sp pos hpos
    have hC : ∀ C : Nat, pos < C → C < h.length →
        (siftupAux fuel (h.set pos (h.getD C default)) x sp C).Perm (h.set pos x) := by
      intro C hpc hCl
      have := ih (h.set pos (h.getD C default)) x sp C (by rw [List.length_set]; exact hCl)
      exact this.trans (set_set_perm h pos C x default hpos hCl (by omega))
    rw [siftupAux]
    by_cases h1 : 2 * pos + 1 < h.length
    · simp only [if_pos h1]
      split
      · rename_i hcond
        rw [Bool.and_eq_true, decide_eq_true_eq] at hcond
        exact hC (2 * pos + 1 + 1) (by omega) hcond.1
      · exact hC (2 * pos + 1) (by omega) h1
    · simp only [if_neg h1]
      have hp : pos < (h.set pos x).length := by simpa using hpos
      have := siftdown_perm (h.set pos x) sp pos hp
      rw [getD_set_self h pos x default hpos] at this
      rw [List.set_set] at this
      exact this

theorem siftup_perm (h : List HeapItem) (pos : Nat) (hpos : pos < h.length) :
    (siftup h pos).Perm (h.set pos (h.getD pos default)) :=
  siftupAux_perm h.length h (h.getD pos default) pos pos hpos

theorem heappush_perm (h : List HeapItem) (x : HeapItem) :
    (heappush h x).Perm (x :: h) := by
  unfold heappush
  have hlen : h.length < (h ++ [x]).length := by simp
  have h1 := siftdown_perm (h ++ [x]) 0 h.length hlen
  rw [getD_append_length] at h1
  have h2 : (h ++ [x]).set h.length x = h ++ [x] := by
    have := set_getD_self (h ++ [x]) h.length default hlen
    rwa [getD_append_length] at this
  rw [h2] at h1
  exact h1.trans (List.perm_append_singleton x h)

theorem heappop_eq_none (h : List HeapItem) : heappop h = none ↔ h = [] := by
  unfold heappop
  cases hgl : h.getLast? with
  | none => simpa using List.getLast?_eq_none_iff.mp hgl
  | some l =>
    constructor
    · intro hcon
      dsimp only at hcon
      by_cases he : h.dropLast.isEmpty <;> simp [he] at hcon
    · intro he
      subst he
      simp at hgl

theorem heappop_perm (h : List HeapItem) (it : HeapItem) (h' : List HeapItem)
    (hp : heappop h = some (it, h')) : h.Perm (it :: h') := by
  unfold heappop at hp
  cases hgl : h.getLast? with
  | none => rw [hgl] at hp; exact absurd hp (by simp)
  | some l =>
    rw [hgl] at hp
    dsimp only at hp
    have hsplit : h.dropLast ++ [l] = h := List.dropLast_append_getLast? l hgl
    by_cases he : h.dropLast.isEmpty
    · rw [if_pos he] at hp
      injection hp with hp2
      cases hp2
      have he' := List.isEmpty_iff.mp he
      rw [← hsplit, he']
      exact List.Perm.refl _
    · rw [if_neg he] at hp
      injection hp with hp2
      cases hp2
      have he' : h.dropLast ≠ [] := fun hcon => he (by simp [hcon])
      have hne : 0 < h.dropLast.length := List.length_pos.mpr he'
      have hlen0 : 0 < (h.dropLast.set 0 l).length := by simpa using hne
      have hperm := siftup_perm (h.dropLast.set 0 l) 0 hlen0
      rw [List.set_set] at hperm
      rw [getD_set_self _ _ _ _ hne] at hperm
      have hperm2 : (h.dropLast.getD 0 default :: h.dropLast.set 0 l).Perm
          (l :: h.dropLast) := perm_cons_set h.dropLast 0 l default hne
      have hit' : h.dropLast.headD default = h.dropLast.getD 0 default := by
        rw [List.headD_eq_head?, List.getD_eq_getElem?_getD, ← List.head?_eq_getElem?]
      rw [hit']
      have step1 : (h.dropLast.getD 0 default :: siftup (h.dropLast.set 0 l) 0).Perm
          (h.dropLast.getD 0 default :: h.dropLast.set 0 l) := hperm.cons _
      have step2 := step1.trans hperm2
      have hfin : h.Perm (l :: h.dropLast) := by
        have := List.perm_append_singleton l h.dropLast
        rwa [hsplit] at this
      exact hfin.trans step2.symm

theorem heappop_mem (h : List HeapItem) (it : HeapItem) (h' : List HeapItem)
    (hp : heappop h = some (it, h')) : it ∈ h :=
  (heappop_perm h it h' hp).mem_iff.mpr (List.mem_cons_self it h')

theorem heappop_length (h : List HeapItem) (it : HeapItem) (h' : List HeapItem)
    (hp : heappop h = some (it, h')) : h.length = h'.length + 1 := by
  have := (heappop_perm h it h' hp).length_eq
  simpa using this

/-! ### Heap: order invariant facts -/

theorem heapLe_refl (a : HeapItem) : heapLe a a := le_refl _

theorem heapLe_trans {a b c : HeapItem} (h1 : heapLe a b) (h2 : heapLe b c) :
    heapLe a c := le_trans h1 h2

theorem itemLt_le {a b : HeapItem} (h : itemLt a b = true) : heapLe a b :=
  le_of_lt (by simpa [itemLt] using h)

theorem not_itemLt_le {a b : HeapItem} (h : ¬ itemLt a b = true) : heapLe b a :=
  le_of_not_lt (by simpa [itemLt] using h)

theorem set_hole_heapInv (h : List HeapItem) (x : HeapItem) (pos : Nat)
    (hlen : pos < h.length)
    (hex : HeapExceptAt h pos) (hch : ChildrenGE h pos x)
    (hpar : 0 < pos → heapLe (h.getD ((pos - 1) / 2) default) x) :
    heapInvariant (h.set pos x) := by
  intro i hi hilen
  rw [List.length_set] at hilen
  by_cases hip : i = pos
  · subst hip
    rw [getD_set_self h i x default hilen]
    rw [getD_set_ne h i ((i - 1) / 2) x default (by omega)]
    exact hpar hi
  · rw [getD_set_ne h pos i x default (fun hc => hip hc.symm)]
    by_cases hpp : (i - 1) / 2 = pos
    · rw [hpp, getD_set_self h pos x default hlen]
      exact hch i hi hilen hpp
    · rw [getD_set_ne h pos ((i - 1) / 2) x default (fun hc => hpp hc.symm)]
      exact hex i hi hilen hip hpp

theorem siftdownAux_heapInv (fuel : Nat) :
    ∀ (h : List HeapItem) (x : HeapItem) (pos : Nat),
      pos < h.length → pos ≤ fuel → HeapExceptAt h pos → ChildrenGE h pos x →
      GrandOK h pos → heapInvariant (siftdownAux fuel h x 0 pos) := by
  induction fuel with
  | zero =>
    intro h x pos hlen hle hex hch _
    have hp0 : pos = 0 := by omega
    subst hp0
    exact set_hole_heapInv h x 0 hlen hex hch (by omega)
  | succ fuel ih =>
    intro h x pos hlen hfuel hex hch hgr
    rw [siftdownAux]
    by_cases h1 : 0 < pos
    · simp only [if_pos h1]
      by_cases h2 : itemLt x (h.getD ((pos - 1) / 2) default) = true
      · simp only [if_pos h2]
        apply ih
        · rw [List.length_set]; omega
        · omega
        · intro i hi hilen hip hipp
          rw [List.length_set] at hilen
          by_cases hipos : i = pos
          · exact absurd (by omega : (i - 1) / 2 = (pos - 1) / 2) (by rw [hipos] at hipp ⊢; exact hipp)
          · rw [getD_set_ne h pos i _ default (fun hc => hipos hc.symm)]
            by_cases hpp : (i - 1) / 2 = pos
            · rw [hpp, getD_set_self h pos _ default hlen]
              exact hgr h1 i hi hilen hpp
            · rw [getD_set_ne h pos ((i - 1) / 2) _ default (fun hc => hpp hc.symm)]
              exact hex i hi hilen hipos hpp
        · intro c hc hclen hcp
          rw [List.length_set] at hclen
          by_cases hcpos : c = pos
          · subst hcpos
            rw [getD_set_self h c _ default hlen]
            exact itemLt_le h2
          · rw [getD_set_ne h pos c _ default (fun hc2 => hcpos hc2.symm)]
            have hsib : heapLe (h.getD ((c - 1) / 2) default) (h.getD c default) :=
              hex c hc hclen hcpos (by omega)
            rw [hcp] at hsib
            exact heapLe_trans (itemLt_le h2) hsib
        · intro hpp0 c hc hclen hcp
          rw [List.length_set] at hclen
          rw [getD_set_ne h pos (((pos - 1) / 2 - 1) / 2) _ default (by omega)]
          by_cases hcpos : c = pos
          · subst hcpos
            rw [getD_set_self h c _ default hlen]
            exact hex ((c - 1) / 2) hpp0 (by omega) (by omega) (by omega)
          · rw [getD_set_ne h pos c _ default (fun hc2 => hcpos hc2.symm)]
            have hg1 : heapLe (h.getD (((pos - 1) / 2 - 1) / 2) default)
                (h.getD ((pos - 1) / 2) default) :=
              hex ((pos - 1) / 2) hpp0 (by omega) (by omega) (by omega)
            have hg2 : heapLe (h.getD ((c - 1) / 2) default) (h.getD c default) :=
              hex c hc hclen hcpos (by omega)
            rw [hcp] at hg2
            exact heapLe_trans hg1 hg2
      · simp only [if_neg h2]
        exact set_hole_heapInv h x pos hlen hex hch (fun _ => not_itemLt_le h2)
    · simp only [if_neg h1]
      have hp0 : pos = 0 := by omega
      subst hp0
      exact set_hole_heapInv h x 0 hlen hex hch (by omega)

theorem siftupAux_heapInv (fuel : Nat) :
    ∀ (h : List HeapItem) (x : HeapItem) (pos : Nat),
      pos < h.length → h.length ≤ fuel + pos → HeapExceptAt h pos → GrandOK h pos →
      heapInvariant (siftupAux fuel h x 0 pos) := by
  induction fuel with
  | zero =>
    intro h x pos hlen hfuel _ _
    exact absurd hlen (by omega)
  | succ fuel ih =>
    intro h x pos hlen hfuel hex hgr
    rw [siftupAux]
    by_cases h1 : 2 * pos + 1 < h.length
    · simp only [if_pos h1]
      have key : ∀ C : Nat, C < h.length → pos < C → (C - 1) / 2 = pos →
          (∀ s, 0 < s → s < h.length → (s - 1) / 2 = pos →
            heapLe (h.getD C default) (h.getD s default)) →
          heapInvariant (siftupAux fuel (h.set pos (h.getD C default)) x 0 C) := by
        intro C hClen hpC hCpar hmin
        apply ih
        · rw [List.length_set]; exact hClen
        · rw [List.length_set]; omega
        · intro i hi hilen hiC hiparC
          rw [List.length_set] at hilen
          by_cases hip : i = pos
          · subst hip
            rw [getD_set_self h i _ default hlen]
            rw [getD_set_ne h i ((i - 1) / 2) _ default (by omega)]
            exact hgr hi C (by omega) hClen hCpar
          · rw [getD_set_ne h pos i _ default (fun hc => hip hc.symm)]
            by_cases hpp : (i - 1) / 2 = pos
            · rw [hpp, getD_set_self h pos _ default hlen]
              exact hmin i hi hilen hpp
            · rw [getD_set_ne h pos ((i - 1) / 2) _ default (fun hc => hpp hc.symm)]
              exact hex i hi hilen hip hpp
        · intro hC0 gc hgc hgclen hgcpar
          rw [List.length_set] at hgclen
          rw [hCpar, getD_set_self h pos _ default hlen]
          rw [getD_set_ne h pos gc _ default (by omega)]
          have hgz := hex gc hgc hgclen (by omega) (by omega)
          rw [hgcpar] at hgz
          exact hgz
      split
      · rename_i hcond
        rw [Bool.and_eq_true, decide_eq_true_eq] at hcond
        have h22 : 2 * pos + 1 + 1 = 2 * pos + 2 := by omega
        rw [h22] at hcond ⊢
        apply key (2 * pos + 2) hcond.1 (by omega) (by omega)
        intro s hs hslen hspar
        have hcases : s = 2 * pos + 1 ∨ s = 2 * pos + 2 := by omega
        rcases hcases with rfl | rfl
        · have hfalse : itemLt (h.getD (2 * pos + 1) default)
              (h.getD (2 * pos + 2) default) = false := by
            have := hcond.2
            rwa [Bool.not_eq_true'] at this
          exact not_itemLt_le (by rw [hfalse]; exact Bool.false_ne_true)
        · exact heapLe_refl _
      · rename_i hcond
        apply key (2 * pos + 1) h1 (by omega) (by omega)
        intro s hs hslen hspar
        have hcases : s = 2 * pos + 1 ∨ s = 2 * pos + 2 := by omega
        rcases hcases with rfl | rfl
        · exact heapLe_refl _
        · have hlr : itemLt (h.getD (2 * pos + 1) default)
              (h.getD (2 * pos + 1 + 1) default) = true := by
            by_contra hno
            apply hcond
            rw [Bool.and_eq_true, decide_eq_true_eq]
            exact ⟨by omega, by rw [Bool.not_eq_true']; exact Bool.eq_false_iff.mpr hno⟩
          have h22 : 2 * pos + 1 + 1 = 2 * pos + 2 := by omega
          rw [h22] at hlr
          exact itemLt_le hlr
    · simp only [if_neg h1]
      show heapInvariant (siftdown (h.set pos x) 0 pos)
      unfold siftdown
      rw [getD_set_self h pos x default hlen]
      apply siftdownAux_heapInv
      · simpa using hlen
      · exact le_refl _
      · intro i hi hilen hip hipp
        rw [List.length_set] at hilen
        rw [getD_set_ne h pos i x default (fun hc => hip hc.symm)]
        rw [getD_set_ne h pos ((i - 1) / 2) x default (fun hc => hipp hc.symm)]
        exact hex i hi hilen hip hipp
      · intro c hc hclen hcp
        rw [List.length_set] at hclen
        omega
      · intro h0 c hc hclen hcp
        rw [List.length_set] at hclen
        omega

theorem heappush_heapInv (h : List HeapItem) (x : HeapItem)
    (hh : heapInvariant h) : heapInvariant (heappush h x) := by
  unfold heappush siftdown
  rw [getD_append_length]
  apply siftdownAux_heapInv
  · simp
  · exact le_refl _
  · intro i hi hilen hip hipp
    simp only [List.length_append, List.length_singleton] at hilen
    have hi' : i < h.length := by omega
    rw [getD_append_left h [x] i default hi']
    rw [getD_append_left h [x] ((i - 1) / 2) default (by omega)]
    exact hh i hi hi'
  · intro c hc hclen hcp
    simp only [List.length_append, List.length_singleton] at hclen
    omega
  · intro h0 c hc hclen hcp
    simp only [List.length_append, List.length_singleton] at hclen
    omega

theorem heappop_heapInv (h : List HeapItem) (it : HeapItem) (h' : List HeapItem)
    (hh : heapInvariant h) (hp : heappop h = some (it, h')) : heapInvariant h' := by
  unfold heappop at hp
  cases hgl : h.getLast? with
  | none => rw [hgl] at hp; exact absurd hp (by simp)
  | some l =>
    rw [hgl] at hp
    dsimp only at hp
    by_cases he : h.dropLast.isEmpty
    · rw [if_pos he] at hp
      injection hp with hp2
      rw [Prod.mk.injEq] at hp2
      obtain ⟨hpa, hpb⟩ := hp2
      subst hpa
      subst hpb
      intro i hi hilen
      rw [List.isEmpty_iff.mp he] at hilen
      simp at hilen
    · rw [if_neg he] at hp
      injection hp with hp2
      rw [Prod.mk.injEq] at hp2
      obtain ⟨hpa, hpb⟩ := hp2
      subst hpa
      subst hpb
      have he' : h.dropLast ≠ [] := fun hc => he (by simp [hc])
      have hne : 0 < h.dropLast.length := List.length_pos.mpr he'
      have hdl : h.dropLast.length = h.length - 1 := List.length_dropLast h
      unfold siftup
      rw [getD_set_self h.dropLast 0 l default hne]
      apply siftupAux_heapInv
      · simpa using hne
      · simp
      · intro i hi hilen hip hipp
        rw [List.length_set] at hilen
        rw [getD_set_ne h.dropLast 0 i l default (fun hc => hip hc.symm)]
        rw [getD_set_ne h.dropLast 0 ((i - 1) / 2) l default (fun hc => hipp hc.symm)]
        rw [getD_dropLast h i default (by omega)]
        rw [getD_dropLast h ((i - 1) / 2) default (by omega)]
        exact hh i hi (by omega)
      · intro h0 c hc hclen hcp
        omega

theorem heapInvariant_root_le (h : List HeapItem) (hh : heapInvariant h) :
    ∀ i, i < h.length → heapLe (h.getD 0 default) (h.getD i default) := by
  intro i
  induction i using Nat.strong_induction_on with
  | _ i ih =>
    intro hilen
    match i with
    | 0 => exact heapLe_refl _
    | Nat.succ j =>
      have hpar : (j + 1 - 1) / 2 < j + 1 := by omega
      exact heapLe_trans (ih _ hpar (by omega)) (hh (j + 1) (by omega) hilen)

theorem heappop_min (h : List HeapItem) (it : HeapItem) (h' : List HeapItem)
    (hh : heapInvariant h) (hp : heappop h = some (it, h')) :
    ∀ x ∈ h, heapLe it x := by
  unfold heappop at hp
  cases hgl : h.getLast? with
  | none => rw [hgl] at hp; exact absurd hp (by simp)
  | some l =>
    rw [hgl] at hp
    dsimp only at hp
    have hsplit : h.dropLast ++ [l] = h := List.dropLast_append_getLast? l hgl
    by_cases he : h.dropLast.isEmpty
    · rw [if_pos he] at hp
      injection hp with hp2
      rw [Prod.mk.injEq] at hp2
      obtain ⟨hpa, hpb⟩ := hp2
      subst hpa
      subst hpb
      intro x hx
      have hsing : h = [l] := by
        rw [← hsplit, List.isEmpty_iff.mp he]
        rfl
      rw [hsing] at hx
      simp at hx
      rw [hx]
      exact heapLe_refl _
    · rw [if_neg he] at hp
      injection hp with hp2
      rw [Prod.mk.injEq] at hp2
      obtain ⟨hpa, hpb⟩ := hp2
      subst hpa
      subst hpb
      intro x hx
      have he' : h.dropLast ≠ [] := fun hc => he (by simp [hc])
      have hne : 0 < h.dropLast.length := List.length_pos.mpr he'
      have hdl2 : h.dropLast.length = h.length - 1 := List.length_dropLast h
      have hit : h.dropLast.headD default = h.getD 0 default := by
        rw [List.headD_eq_head?, List.getD_eq_getElem?_getD]
        rw [List.head?_eq_getElem?, List.getElem?_dropLast, if_pos (by omega)]
      rw [hit]
      obtain ⟨i, hi, rfl⟩ := mem_getD h x default hx
      exact heapInvariant_root_le h hh i hi

/-! ### Dictionary (association-list) lemmas -/

theorem dget_dset_self {α : Type} :
    ∀ (d : List (Node × α)) (k : Node) (v : α), dget (dset d k v) k = some v
  | [], k, v => by simp [dset, dget]
  | (k', v') :: t, k, v => by
    by_cases hk : k' = k
    · simp [dset, dget, hk]
    · simp only [dset, if_neg hk, dget]
      exact dget_dset_self t k v


theorem dget_dset_ne {α : Type} :
    ∀ (d : List (Node × α)) (k x : Node) (v : α), k ≠ x →
      dget (dset d k v) x = dget d x
  | [], k, x, v, h => by simp [dset, dget, h]
  | (k', v') :: t, k, x, v, h => by
    by_cases hk : k' = k
    · subst hk
      simp [dset, dget, h]
    · simp only [dset, if_neg hk, dget]
      by_cases hx : k' = x
      · simp [hx]
      · rw [if_neg hx, if_neg hx]
        exact dget_dset_ne t k x v h

theorem dget_isSome_dset {α : Type} (d : List (Node × α)) (k x : Node) (v : α) :
    (dget (dset d k v) x).isSome ↔ ((dget d x).isSome ∨ x = k) := by
  by_cases hk : k = x
  · subst hk
    simp [dget_dset_self]
  · rw [dget_dset_ne d k x v hk]
    constructor
    · exact Or.inl
    · rintro (h | h)
      · exact h
      · exact absurd h.symm hk

theorem dset_length_of_isSome {α : Type} :
    ∀ (d : List (Node × α)) (k : Node) (v : α), (dget d k).isSome →
      (dset d k v).length = d.length
  | [], k, v, h => by simp [dget] at h
  | (k', v') :: t, k, v, h => by
    by_cases hk : k' = k
    · simp [dset, hk]
    · simp only [dget, if_neg hk] at h
      simp only [dset, if_neg hk, List.length_cons]
      rw [dset_length_of_isSome t k v h]

theorem dset_length_le {α : Type} :
    ∀ (d : List (Node × α)) (k : Node) (v : α), (dset d k v).length ≤ d.length + 1
  | [], k, v => by simp [dset]
  | (k', v') :: t, k, v => by
    by_cases hk : k' = k
    · simp [dset, hk]
    · simp only [dset, if_neg hk, List.length_cons]
      have := dset_length_le t k v
      omega

theorem dget_map_const {α β : Type} :
    ∀ (l : List (Node × α)) (c : β) (x : Node),
      dget (l.map fun p => (p.1, c)) x = (dget l x).map fun _ => c
  | [], c, x => rfl
  | (k', v') :: t, c, x => by
    simp only [List.map_cons, dget]
    by_cases hk : k' = x
    · simp [hk]
    · rw [if_neg hk, if_neg hk]
      exact dget_map_const t c x

theorem dgetD_eq {α : Type} (d : List (Node × α)) (k : Node) (dflt v : α)
    (h : dget d k = some v) : dgetD d k dflt = v := by
  simp [dgetD, h]

theorem dgetD_none {α : Type} (d : List (Node × α)) (k : Node) (dflt : α)
    (h : dget d k = none) : dgetD d k dflt = dflt := by
  simp [dgetD, h]

theorem dget_mem_keys {α : Type} :
    ∀ (d : List (Node × α)) (k : Node), (dget d k).isSome → k ∈ dkeys d
  | [], k, h => by simp [dget] at h
  | (k', v') :: t, k, h => by
    by_cases hk : k' = k
    · simp [dkeys, hk]
    · simp only [dget, if_neg hk] at h
      simp only [dkeys, List.map_cons, List.mem_cons]
      exact Or.inr (dget_mem_keys t k h)

/-! ### DistVal arithmetic helpers -/

theorem distval_exists_coe (x : DistVal) (hx : x ≠ ⊤) : ∃ c : Nat, x = (c : DistVal) := by
  cases x using WithTop.recTopCoe with
  | top => exact absurd rfl hx
  | coe n => exact ⟨n, rfl⟩

theorem distval_not_lt_zero (x : DistVal) : ¬ x < ((0 : Nat) : DistVal) := by
  cases x using WithTop.recTopCoe with
  | top => simp
  | coe n => simp

theorem distval_add_not_lt (d : DistVal) (w : Nat) : ¬ (d + (w : DistVal) < d) :=
  not_lt.mpr (self_le_add_right d _)

theorem distval_coe_ne_top (c : Nat) : ((c : DistVal)) ≠ ⊤ := by simp

/-! ### Path lemmas -/

theorem IsPath.snoc_edge {g : Graph} {s : Node} :
    ∀ {u : Node} {c : Nat}, IsPath g s u c → ∀ {v : Node} {w : Nat},
      hasEdge g u v w → IsPath g s v (c + w) := by
  intro u c hp
  induction hp with
  | nil x =>
    intro v w he
    simpa using IsPath.cons he (IsPath.nil v)
  | cons he' hp' ih =>
    intro v w he
    have h2 := IsPath.cons he' (ih he)
    simpa [Nat.add_assoc] using h2

theorem IsPathList.ne_nil {g : Graph} {l : List Node} {c : Nat}
    (hp : IsPathList g l c) : l ≠ [] := by
  cases hp <;> simp

theorem IsPathList.append_edge {g : Graph} :
    ∀ {l : List Node} {c : Nat}, IsPathList g l c → ∀ {u v : Node} {w : Nat},
      l.getLast? = some u → hasEdge g u v w → IsPathList g (l ++ [v]) (c + w) := by
  intro l c hp
  induction hp with
  | single x =>
    intro u v w hlast he
    simp at hlast
    subst hlast
    simpa using IsPathList.cons he (IsPathList.single v)
  | cons he' hp' ih =>
    intro u v w hlast he
    rename_i u' v' rest w' c'
    have hlast' : (v' :: rest).getLast? = some u := by
      rw [← hlast]
      rw [List.getLast?_cons_cons]
    have h2 := IsPathList.cons he' (ih hlast' he)
    simpa [Nat.add_assoc] using h2

/-! ### The relaxation loop -/

theorem mem_heappush (h : List HeapItem) (it x : HeapItem) :
    x ∈ heappush h it ↔ x = it ∨ x ∈ h := by
  constructor
  · intro hx
    have := (heappush_perm h it).mem_iff.mp hx
    simpa using this
  · intro hx
    apply (heappush_perm h it).mem_iff.mpr
    simpa using hx

theorem mem_adjGet_isSome (g : Graph) (u v : Node) (w : Nat)
    (h : (v, w) ∈ g.adjGet u) : (dget g.adjacency u).isSome := by
  unfold Graph.adjGet at h
  cases hh : dget g.adjacency u with
  | none => rw [hh] at h; simp at h
  | some l => rfl

theorem path_start_key {g : Graph} {s t : Node} {c : Nat}
    (hp : IsPath g s t c) (hne : s ≠ t) : (dget g.adjacency s).isSome := by
  cases hp with
  | nil => exact absurd rfl hne
  | cons he hp' => exact mem_adjGet_isSome g s _ _ he

theorem relaxFold_spec (g : Graph) (start current : Node) (vis : List Node) :
    ∀ (lst : List (Node × Nat)) (dist : List (Node × DistVal))
      (prev : List (Node × Option Node)) (heap : List HeapItem)
      (d' : List (Node × DistVal)) (p' : List (Node × Option Node))
      (h' : List HeapItem),
      FoldInv g start current lst vis dist prev heap →
      relaxFold current lst dist prev heap = some (d', p', h') →
      RunInv g start ⟨d', p', h', vis⟩ ∧
      dget d' current = dget dist current ∧
      (∀ v ∈ vis, dget d' v = dget dist v) ∧
      (∀ v, dgetD d' v ⊤ ≤ dgetD dist v ⊤) ∧
      h'.length ≤ heap.length + lst.length := by
  intro lst
  induction lst with
  | nil =>
    intro dist prev heap d' p' h' hF hr
    simp only [relaxFold] at hr
    injection hr with hr2
    rw [Prod.mk.injEq] at hr2
    obtain ⟨hd, hr3⟩ := hr2
    rw [Prod.mk.injEq] at hr3
    obtain ⟨hp2, hh2⟩ := hr3
    subst hd
    subst hp2
    subst hh2
    refine ⟨⟨hF.hheap, hF.hdistkeys, hF.hprevkeys, hF.hstart0, hF.hprevstart, hF.hitems,
      hF.hdistfin, hF.hupper, hF.hcover, hF.hvshort, hF.hvfin, ?_, hF.hprevsome,
      hF.hprevidx, hF.hprevnone, hF.hprevstartkey, hF.hvisnodup, hF.hvismem,
      hF.hdistlen, hF.hprevlen⟩,
      rfl, fun v _ => rfl, fun v => le_refl _, by omega⟩
    intro u hu v w hvw
    rcases hF.hclosure u hu v w hvw with ⟨_, hmem⟩ | hb
    · exact absurd hmem (by simp)
    · exact hb
  | cons e rest ih =>
    obtain ⟨neighbor, weight⟩ := e
    intro dist prev heap d' p' h' hF hr
    obtain ⟨c0, hdc⟩ := hF.hvfin current hF.hcur
    simp only [relaxFold, hdc] at hr
    cases hdn : dget dist neighbor with
    | none =>
      rw [hdn] at hr
      exact absurd hr (by simp)
    | some dn =>
      rw [hdn] at hr
      dsimp only at hr
      have hedge : hasEdge g current neighbor weight :=
        hF.hsub (neighbor, weight) (List.mem_cons_self _ _)
      have hpathn : IsPath g start neighbor (c0 + weight) :=
        (hF.hdistfin current c0 hdc).snoc_edge hedge
      have hdnD : dgetD dist neighbor ⊤ = dn := dgetD_eq dist neighbor ⊤ dn hdn
      have hdcD : dgetD dist current ⊤ = (c0 : DistVal) :=
        dgetD_eq dist current ⊤ _ hdc
      by_cases hlt : ((c0 : DistVal) + (weight : DistVal)) < dn
      · rw [if_pos hlt] at hr
        have hne_vis : neighbor ∉ vis := by
          intro hmem
          have hshort := (hF.hvshort neighbor hmem).1 (c0 + weight) hpathn
          rw [hdnD] at hshort
          have hshort2 : dn ≤ (c0 : DistVal) + (weight : DistVal) := by
            exact_mod_cast hshort
          exact absurd hlt (not_lt.mpr hshort2)
        have hne_start : neighbor ≠ start := by
          intro hcon
          rw [hcon, hF.hstart0] at hdn
          injection hdn with hdn2
          rw [← hdn2] at hlt
          exact distval_not_lt_zero _ hlt
        have hne_cur : neighbor ≠ current := fun hcon => hne_vis (hcon ▸ hF.hcur)
        have hnkey : (dget g.adjacency neighbor).isSome := by
          have h1 : (dget dist neighbor).isSome := by rw [hdn]; rfl
          rcases (hF.hdistkeys neighbor).mp h1 with h2 | h2
          · exact h2
          · exact absurd h2 hne_start
        have hmono : ∀ v, dgetD (dset dist neighbor ((c0 : DistVal) + (weight : DistVal))) v ⊤ ≤
            dgetD dist v ⊤ := by
          intro v
          by_cases hv : v = neighbor
          · subst hv
            rw [dgetD_eq _ v ⊤ _ (dget_dset_self dist v _), hdnD]
            exact le_of_lt hlt
          · unfold dgetD
            rw [dget_dset_ne dist neighbor v _ (fun hc => hv hc.symm)]
        have hfix : ∀ v, v ≠ neighbor →
            dget (dset dist neighbor ((c0 : DistVal) + (weight : DistVal))) v = dget dist v :=
          fun v hv => dget_dset_ne dist neighbor v _ (fun hc => hv hc.symm)
        have hpfix : ∀ v, v ≠ neighbor →
            dget (dset prev neighbor (some current)) v = dget prev v :=
          fun v hv => dget_dset_ne prev neighbor v _ (fun hc => hv hc.symm)
        have hcoe : ((c0 : DistVal) + (weight : DistVal)) = ((c0 + weight : Nat) : DistVal) := by
          push_cast
          rfl
        have hF1 : FoldInv g start current rest vis
            (dset dist neighbor ((c0 : DistVal) + (weight : DistVal)))
            (dset prev neighbor (some current))
            (heappush heap ⟨(c0 : DistVal) + (weight : DistVal), neighbor⟩) := by
          constructor
          · exact heappush_heapInv heap _ hF.hheap
          · intro v
            rw [dget_isSome_dset]
            constructor
            · rintro (h1 | rfl)
              · exact (hF.hdistkeys v).mp h1
              · exact Or.inl hnkey
            · intro h1
              exact Or.inl ((hF.hdistkeys v).mpr h1)
          · intro v
            rw [dget_isSome_dset]
            constructor
            · rintro (h1 | rfl)
              · exact (hF.hprevkeys v).mp h1
              · exact hnkey
            · intro h1
              exact Or.inl ((hF.hprevkeys v).mpr h1)
          · rw [hfix start (fun hc => hne_start hc.symm)]
            exact hF.hstart0
          · rw [hpfix start (fun hc => hne_start hc.symm)]
            exact hF.hprevstart
          · intro it hit
            rw [mem_heappush] at hit
            rcases hit with rfl | hit
            · exact ⟨c0 + weight, hpathn, hcoe⟩
            · exact hF.hitems it hit
          · intro v c hv
            by_cases hvn : v = neighbor
            · subst hvn
              rw [dget_dset_self] at hv
              injection hv with hv2
              rw [hcoe] at hv2
              have hv3 : c0 + weight = c := by exact_mod_cast hv2
              rw [← hv3]
              exact hpathn
            · rw [hfix v hvn] at hv
              exact hF.hdistfin v c hv
          · intro it hit
            rw [mem_heappush] at hit
            rcases hit with rfl | hit
            · rw [dgetD_eq _ neighbor ⊤ _ (dget_dset_self dist neighbor _)]
            · exact le_trans (hmono it.node) (hF.hupper it hit)
          · intro v c hnv hv
            by_cases hvn : v = neighbor
            · subst hvn
              rw [dget_dset_self] at hv
              injection hv with hv2
              exact ⟨⟨(c0 : DistVal) + (weight : DistVal), v⟩,
                (mem_heappush _ _ _).mpr (Or.inl rfl), rfl, hv2⟩
            · rw [hfix v hvn] at hv
              obtain ⟨it, hit, hit2, hit3⟩ := hF.hcover v c hnv hv
              exact ⟨it, (mem_heappush _ _ _).mpr (Or.inr hit), hit2, hit3⟩
          · intro v hv
            have hvn : v ≠ neighbor := fun hc => hne_vis (hc ▸ hv)
            unfold dgetD
            rw [dget_dset_ne dist neighbor v _ (fun hc => hvn hc.symm)]
            exact hF.hvshort v hv
          · intro v hv
            have hvn : v ≠ neighbor := fun hc => hne_vis (hc ▸ hv)
            rw [hfix v hvn]
            exact hF.hvfin v hv
          · intro u hu v w hvw
            have hun : u ≠ neighbor := fun hc => hne_vis (hc ▸ hu)
            rcases hF.hclosure u hu v w hvw with ⟨hucur, hmem⟩ | hb
            · rcases List.mem_cons.mp hmem with heq | hmem'
              · right
                rw [Prod.mk.injEq] at heq
                obtain ⟨rfl, rfl⟩ := heq
                rw [dgetD_eq _ v ⊤ _ (dget_dset_self dist v _)]
                unfold dgetD
                rw [dget_dset_ne dist v u _ (fun hc => hun hc.symm)]
                rw [hucur]
                rw [show (dget dist current).getD ⊤ = dgetD dist current ⊤ from rfl, hdcD]
              · exact Or.inl ⟨hucur, hmem'⟩
            · right
              refine le_trans (hmono v) (le_trans hb ?_)
              unfold dgetD
              rw [dget_dset_ne dist neighbor u _ (fun hc => hun hc.symm)]
          · intro v u hv
            by_cases hvn : v = neighbor
            · subst hvn
              rw [dget_dset_self] at hv
              injection hv with hv2
              injection hv2 with hv3
              subst hv3
              refine ⟨hF.hcur, weight, hedge, ?_⟩
              rw [dgetD_eq _ v ⊤ _ (dget_dset_self dist v _)]
              unfold dgetD
              rw [dget_dset_ne dist v current _ hne_cur]
              rw [show (dget dist current).getD ⊤ = dgetD dist current ⊤ from rfl, hdcD]
            · rw [hpfix v hvn] at hv
              obtain ⟨hu, w, hw, heq⟩ := hF.hprevsome v u hv
              have hun : u ≠ neighbor := fun hc => hne_vis (hc ▸ hu)
              refine ⟨hu, w, hw, ?_⟩
              unfold dgetD
              rw [dget_dset_ne dist neighbor v _ (fun hc => hvn hc.symm)]
              rw [dget_dset_ne dist neighbor u _ (fun hc => hun hc.symm)]
              exact heq
          · intro v u hv hvv
            have hvn : v ≠ neighbor := fun hc => hne_vis (hc ▸ hvv)
            rw [hpfix v hvn] at hv
            exact hF.hprevidx v u hv hvv
          · intro v hvs hv
            by_cases hvn : v = neighbor
            · subst hvn
              rw [dget_dset_self] at hv
              simp at hv
            · rw [hpfix v hvn] at hv
              rw [hfix v hvn]
              exact hF.hprevnone v hvs hv
          · intro v u hv
            by_cases hvn : v = neighbor
            · subst hvn
              by_cases hcs : current = start
              · rw [← hcs]
                exact mem_adjGet_isSome g current v weight hedge
              · exact path_start_key (hF.hdistfin current c0 hdc)
                  (fun hc => hcs hc.symm)
            · rw [hpfix v hvn] at hv
              exact hF.hprevstartkey v u hv
          · exact hF.hvisnodup
          · intro v hv
            rw [dget_isSome_dset]
            exact Or.inl (hF.hvismem v hv)
          · rw [dset_length_of_isSome dist neighbor _ (by rw [hdn]; rfl)]
            exact hF.hdistlen
          · rw [dset_length_of_isSome prev neighbor _ ((hF.hprevkeys neighbor).mpr hnkey)]
            exact hF.hprevlen
          · intro e he
            exact hF.hsub e (List.mem_cons_of_mem _ he)
          · exact hF.hcur
        obtain ⟨hRI, hcur', hvis', hmono', hlen'⟩ := ih _ _ _ d' p' h' hF1 hr
        refine ⟨hRI, ?_, ?_, ?_, ?_⟩
        · rw [hcur', hfix current (Ne.symm hne_cur)]
        · intro v hv
          rw [hvis' v hv, hfix v (fun hc => hne_vis (hc ▸ hv))]
        · intro v
          exact le_trans (hmono' v) (hmono v)
        · rw [heappush_length] at hlen'
          simp only [List.length_cons]
          omega
      · rw [if_neg hlt] at hr
        have hF1 : FoldInv g start current rest vis dist prev heap := by
          constructor
          · exact hF.hheap
          · exact hF.hdistkeys
          · exact hF.hprevkeys
          · exact hF.hstart0
          · exact hF.hprevstart
          · exact hF.hitems
          · exact hF.hdistfin
          · exact hF.hupper
          · exact hF.hcover
          · exact hF.hvshort
          · exact hF.hvfin
          · intro u hu v w hvw
            rcases hF.hclosure u hu v w hvw with ⟨hucur, hmem⟩ | hb
            · rcases List.mem_cons.mp hmem with heq | hmem'
              · right
                rw [Prod.mk.injEq] at heq
                obtain ⟨rfl, rfl⟩ := heq
                rw [hdnD, hucur, hdcD]
                exact not_lt.mp hlt
              · exact Or.inl ⟨hucur, hmem'⟩
            · exact Or.inr hb
          · exact hF.hprevsome
          · exact hF.hprevidx
          · exact hF.hprevnone
          · exact hF.hprevstartkey
          · exact hF.hvisnodup
          · exact hF.hvismem
          · exact hF.hdistlen
          · exact hF.hprevlen
          · intro e he
            exact hF.hsub e (List.mem_cons_of_mem _ he)
          · exact hF.hcur
        obtain ⟨hRI, hcur', hvis', hmono', hlen'⟩ := ih _ _ _ d' p' h' hF1 hr
        refine ⟨hRI, hcur', hvis', hmono', ?_⟩
        simp only [List.length_cons]
        omega

/-! ### The frontier argument: popped minimum is a shortest distance -/

theorem runInv_path_bound (g : Graph) (start : Node) (st : DState)
    (hI : RunInv g start st) :
    ∀ {u t : Node} {c : Nat}, IsPath g u t c → t ∉ st.visited →
      ∀ du : Nat, u ∈ st.visited → dget st.dist u = some (du : DistVal) →
      ∃ it ∈ st.heap, it.distance ≤ ((du + c : Nat) : DistVal) := by
  intro u t c hp
  induction hp with
  | nil x =>
    intro ht du hu _
    exact absurd hu ht
  | cons he hp' ih =>
    rename_i u' v' t' w c'
    intro ht du hu hdu
    by_cases hv : v' ∈ st.visited
    · obtain ⟨cv, hcv⟩ := hI.hvfin v' hv
      obtain ⟨it, hit, hle⟩ := ih ht cv hv hcv
      have hcl := hI.hclosure u' hu v' w he
      rw [dgetD_eq _ _ _ _ hcv, dgetD_eq _ _ _ _ hdu] at hcl
      have hcv2 : cv ≤ du + w := by exact_mod_cast hcl
      refine ⟨it, hit, le_trans hle ?_⟩
      exact_mod_cast (by omega : cv + c' ≤ du + (w + c'))
    · have hcl := hI.hclosure u' hu v' w he
      rw [dgetD_eq _ _ _ _ hdu] at hcl
      have hco : ((du : DistVal) + (w : DistVal)) = ((du + w : Nat) : DistVal) := by
        push_cast
        rfl
      rw [hco] at hcl
      have hsome : (dget st.dist v').isSome := by
        cases hh : dget st.dist v' with
        | none =>
          rw [dgetD_none _ _ _ hh] at hcl
          exact absurd (top_le_iff.mp hcl) (distval_coe_ne_top _)
        | some dv => rfl
      obtain ⟨dv, hdv⟩ := Option.isSome_iff_exists.mp hsome
      have hdvle : dv ≤ ((du + w : Nat) : DistVal) := by
        rw [dgetD_eq _ _ _ _ hdv] at hcl
        exact hcl
      have hdvne : dv ≠ ⊤ := by
        intro hcon
        rw [hcon] at hdvle
        exact absurd (top_le_iff.mp hdvle) (distval_coe_ne_top _)
      obtain ⟨cv, rfl⟩ := distval_exists_coe dv hdvne
      obtain ⟨it, hit, _, hdist⟩ := hI.hcover v' cv hv hdv
      refine ⟨it, hit, ?_⟩
      rw [hdist]
      have hcv2 : cv ≤ du + w := by exact_mod_cast hdvle
      exact_mod_cast (by omega : cv ≤ du + (w + c'))

theorem runInv_cover (g : Graph) (start : Node) (st : DState)
    (hI : RunInv g start st) {t : Node} {c : Nat}
    (ht : t ∉ st.visited) (hp : IsPath g start t c) :
    ∃ it ∈ st.heap, it.distance ≤ (c : DistVal) := by
  have h0 : dget st.dist start = some ((0 : Nat) : DistVal) := by
    rw [hI.hstart0, Nat.cast_zero]
  by_cases hs : start ∈ st.visited
  · obtain ⟨it, hit, hle⟩ := runInv_path_bound g start st hI hp ht 0 hs h0
    rw [Nat.zero_add] at hle
    exact ⟨it, hit, hle⟩
  · obtain ⟨it, hit, _, hdist⟩ := hI.hcover start 0 hs h0
    refine ⟨it, hit, ?_⟩
    rw [hdist]
    exact_mod_cast Nat.zero_le c

theorem runInv_pop_visit (g : Graph) (start : Node) (st : DState)
    (item : HeapItem) (heap' : List HeapItem) (hI : RunInv g start st)
    (hpop : heappop st.heap = some (item, heap')) (hnv : item.node ∉ st.visited) :
    dget st.dist item.node = some item.distance ∧
    IsShortestDist g start item.node item.distance := by
  have hmem := heappop_mem st.heap item heap' hpop
  have hmin := heappop_min st.heap item heap' hI.hheap hpop
  obtain ⟨ci, hpathi, hdi⟩ := hI.hitems item hmem
  have hupper := hI.hupper item hmem
  have hsome : (dget st.dist item.node).isSome := by
    cases hh : dget st.dist item.node with
    | none =>
      rw [dgetD_none _ _ _ hh, hdi] at hupper
      exact absurd (top_le_iff.mp hupper) (distval_coe_ne_top _)
    | some dv => rfl
  obtain ⟨dv, hdv⟩ := Option.isSome_iff_exists.mp hsome
  have hdvle : dv ≤ item.distance := by
    rw [dgetD_eq _ _ _ _ hdv] at hupper
    exact hupper
  have hdvne : dv ≠ ⊤ := by
    intro hcon
    rw [hcon, hdi] at hdvle
    exact absurd (top_le_iff.mp hdvle) (distval_coe_ne_top _)
  obtain ⟨cv, rfl⟩ := distval_exists_coe dv hdvne
  obtain ⟨it', hit', hnode', hdist'⟩ := hI.hcover item.node cv hnv hdv
  have hge : item.distance ≤ ((cv : Nat) : DistVal) := by
    rw [← hdist']
    exact hmin it' hit'
  have heqd : dget st.dist item.node = some item.distance := by
    rw [hdv]
    exact congrArg some (le_antisymm hdvle hge)
  refine ⟨heqd, ?_, Or.inr ⟨ci, hdi, hpathi⟩⟩
  intro c hpc
  by_cases hcle : item.node ∈ st.visited
  · exact absurd hcle hnv
  · obtain ⟨it2, hit2, hle2⟩ := runInv_cover g start st hI hcle hpc
    exact le_trans (hmin it2 hit2) hle2

/-! ### The initial state satisfies the invariant -/

theorem runInv_init (g : Graph) (start : Node) : RunInv g start (initState g start) := by
  constructor
  · intro i hi hilen
    simp only [initState, List.length_singleton] at hilen
    omega
  · intro v
    rw [show (initState g start).dist =
      dset (g.adjacency.map fun p => (p.1, (⊤ : DistVal))) start 0 from rfl]
    rw [dget_isSome_dset, dget_map_const]
    cases hh : dget g.adjacency v <;> simp [hh]
  · intro v
    rw [show (initState g start).prev =
      g.adjacency.map fun p => (p.1, (none : Option Node)) from rfl]
    rw [dget_map_const]
    cases hh : dget g.adjacency v <;> simp [hh]
  · exact dget_dset_self _ start 0
  · rw [show (initState g start).prev =
      g.adjacency.map fun p => (p.1, (none : Option Node)) from rfl]
    rw [dget_map_const]
    cases hh : dget g.adjacency start <;> simp [hh]
  · intro it hit
    simp only [initState, List.mem_singleton] at hit
    subst hit
    exact ⟨0, IsPath.nil start, by rw [Nat.cast_zero]⟩
  · intro v c hv
    by_cases hvs : v = start
    · rw [hvs] at hv ⊢
      rw [show (initState g start).dist =
        dset (g.adjacency.map fun p => (p.1, (⊤ : DistVal))) start 0 from rfl] at hv
      rw [dget_dset_self] at hv
      injection hv with hv2
      have hc0 : c = 0 := by exact_mod_cast hv2.symm
      rw [hc0]
      exact IsPath.nil start
    · rw [show (initState g start).dist =
        dset (g.adjacency.map fun p => (p.1, (⊤ : DistVal))) start 0 from rfl] at hv
      rw [dget_dset_ne _ start v _ (fun hc => hvs hc.symm), dget_map_const] at hv
      cases hh : dget g.adjacency v with
      | none => rw [hh] at hv; exact absurd hv (by simp)
      | some l =>
        rw [hh] at hv
        injection hv with hv2
        exact absurd hv2.symm (distval_coe_ne_top c)
  · intro it hit
    simp only [initState, List.mem_singleton] at hit
    subst hit
    rw [show (initState g start).dist =
      dset (g.adjacency.map fun p => (p.1, (⊤ : DistVal))) start 0 from rfl]
    rw [dgetD_eq _ start ⊤ _ (dget_dset_self _ start 0)]
  · intro v c hnv hv
    by_cases hvs : v = start
    · rw [hvs] at hv ⊢
      rw [show (initState g start).dist =
        dset (g.adjacency.map fun p => (p.1, (⊤ : DistVal))) start 0 from rfl] at hv
      rw [dget_dset_self] at hv
      injection hv with hv2
      exact ⟨⟨0, start⟩, by simp [initState], rfl, hv2⟩
    · rw [show (initState g start).dist =
        dset (g.adjacency.map fun p => (p.1, (⊤ : DistVal))) start 0 from rfl] at hv
      rw [dget_dset_ne _ start v _ (fun hc => hvs hc.symm), dget_map_const] at hv
      cases hh : dget g.adjacency v with
      | none => rw [hh] at hv; exact absurd hv (by simp)
      | some l =>
        rw [hh] at hv
        injection hv with hv2
        exact absurd hv2.symm (distval_coe_ne_top c)
  · intro v hv
    exact absurd hv (by simp [initState])
  · intro v hv
    exact absurd hv (by simp [initState])
  · intro u hu
    exact absurd hu (by simp [initState])
  · intro v u hv
    rw [show (initState g start).prev =
      g.adjacency.map fun p => (p.1, (none : Option Node)) from rfl] at hv
    rw [dget_map_const] at hv
    cases hh : dget g.adjacency v with
    | none => rw [hh] at hv; exact absurd hv (by simp)
    | some l =>
      rw [hh] at hv
      simp at hv
  · intro v u hv hvv
    exact absurd hvv (by simp [initState])
  · intro v hvs hv
    rw [show (initState g start).dist =
      dset (g.adjacency.map fun p => (p.1, (⊤ : DistVal))) start 0 from rfl]
    rw [dget_dset_ne _ start v _ (fun hc => hvs hc.symm), dget_map_const]
    rw [show (initState g start).prev =
      g.adjacency.map fun p => (p.1, (none : Option Node)) from rfl] at hv
    rw [dget_map_const] at hv
    cases hh : dget g.adjacency v with
    | none => rw [hh] at hv; exact absurd hv (by simp)
    | some l => rfl
  · intro v u hv
    rw [show (initState g start).prev =
      g.adjacency.map fun p => (p.1, (none : Option Node)) from rfl] at hv
    rw [dget_map_const] at hv
    cases hh : dget g.adjacency v with
    | none => rw [hh] at hv; exact absurd hv (by simp)
    | some l =>
      rw [hh] at hv
      simp at hv
  · exact List.nodup_nil
  · intro v hv
    exact absurd hv (by simp [initState])
  · rw [show (initState g start).dist =
      dset (g.adjacency.map fun p => (p.1, (⊤ : DistVal))) start 0 from rfl]
    have := dset_length_le (g.adjacency.map fun p => (p.1, (⊤ : DistVal))) start 0
    rw [List.length_map] at this
    exact this
  · rw [show (initState g start).prev =
      g.adjacency.map fun p => (p.1, (none : Option Node)) from rfl]
    exact List.length_map _ _

/-! ### Visit-order bookkeeping and the termination measure -/

theorem indexOf_append_mem : ∀ (l l2 : List Node) (a : Node), a ∈ l →
    (l ++ l2).indexOf a = l.indexOf a
  | [], _, a, h => absurd h (by simp)
  | x :: t, l2, a, h => by
    by_cases hx : x = a
    · simp [List.indexOf_cons, hx]
    · have ht : a ∈ t := by
        rcases List.mem_cons.mp h with h1 | h1
        · exact absurd h1.symm hx
        · exact h1
      simp [List.indexOf_cons, hx, indexOf_append_mem t l2 a ht]

theorem indexOf_append_self : ∀ (l : List Node) (c : Node), c ∉ l →
    (l ++ [c]).indexOf c = l.length
  | [], c, _ => by simp [List.indexOf_cons]
  | x :: t, c, h => by
    have hx : x ≠ c := fun hc => h (by simp [hc])
    have ht : c ∉ t := fun hc => h (List.mem_cons_of_mem _ hc)
    simp [List.indexOf_cons, hx, indexOf_append_self t c ht]

theorem indexOf_lt_len : ∀ (l : List Node) (a : Node), a ∈ l →
    l.indexOf a < l.length
  | [], a, h => absurd h (by simp)
  | x :: t, a, h => by
    by_cases hx : x = a
    · simp [List.indexOf_cons, hx]
    · have ht : a ∈ t := by
        rcases List.mem_cons.mp h with h1 | h1
        · exact absurd h1.symm hx
        · exact h1
      simp only [List.indexOf_cons, List.length_cons]
      have hb : (x == a) = false := by simp [hx]
      rw [hb]
      simp only [cond_false]
      have := indexOf_lt_len t a ht
      omega

theorem filter_cons_decide {α : Type} (p : α → Bool) (a : α) (t : List α) :
    (a :: t).filter p = if p a = true then a :: t.filter p else t.filter p := by
  cases hp : p a <;> simp [List.filter_cons, hp]

theorem sum_filter_mono (vis : List Node) (c : Node) :
    ∀ (adj : List (Node × List (Node × Nat))),
      ((adj.filter fun p => decide (p.1 ∉ vis ++ [c])).map fun p => p.2.length).sum ≤
      ((adj.filter fun p => decide (p.1 ∉ vis)).map fun p => p.2.length).sum
  | [] => le_refl 0
  | (k, l) :: t => by
    have ih := sum_filter_mono vis c t
    rw [filter_cons_decide, filter_cons_decide]
    by_cases hk : k ∈ vis
    · rw [if_neg (show ¬(decide (k ∉ vis ++ [c]) = true) by simp [hk])]
      rw [if_neg (show ¬(decide (k ∉ vis) = true) by simp [hk])]
      exact ih
    · rw [if_pos (show decide (k ∉ vis) = true by simp [hk])]
      by_cases hkc : k = c
      · rw [if_neg (show ¬(decide (k ∉ vis ++ [c]) = true) by simp [hkc])]
        simp only [List.map_cons, List.sum_cons]
        omega
      · rw [if_pos (show decide (k ∉ vis ++ [c]) = true by simp [hk, hkc])]
        simp only [List.map_cons, List.sum_cons]
        omega

theorem remAdj_aux (vis : List Node) (c : Node) (hc : c ∉ vis) :
    ∀ (adj : List (Node × List (Node × Nat))),
      ((adj.filter fun p => decide (p.1 ∉ vis ++ [c])).map fun p => p.2.length).sum +
        ((dget adj c).getD []).length ≤
      ((adj.filter fun p => decide (p.1 ∉ vis)).map fun p => p.2.length).sum
  | [] => by simp [dget]
  | (k, l) :: t => by
    by_cases hkc : k = c
    · subst hkc
      have hd : dget ((k, l) :: t) k = some l := by simp [dget]
      rw [hd, filter_cons_decide, filter_cons_decide]
      rw [if_neg (show ¬(decide (k ∉ vis ++ [k]) = true) by simp)]
      rw [if_pos (show decide (k ∉ vis) = true by simp [hc])]
      simp only [List.map_cons, List.sum_cons, Option.getD_some]
      have := sum_filter_mono vis k t
      omega
    · have hd : dget ((k, l) :: t) c = dget t c := by simp [dget, hkc]
      rw [hd, filter_cons_decide, filter_cons_decide]
      have ih := remAdj_aux vis c hc t
      by_cases hk : k ∈ vis
      · rw [if_neg (show ¬(decide (k ∉ vis ++ [c]) = true) by simp [hk])]
        rw [if_neg (show ¬(decide (k ∉ vis) = true) by simp [hk])]
        exact ih
      · rw [if_pos (show decide (k ∉ vis ++ [c]) = true by simp [hk, hkc])]
        rw [if_pos (show decide (k ∉ vis) = true by simp [hk])]
        simp only [List.map_cons, List.sum_cons]
        omega

theorem remAdj_append (g : Graph) (vis : List Node) (c : Node) (hc : c ∉ vis) :
    remAdj g (vis ++ [c]) + (g.adjGet c).length ≤ remAdj g vis :=
  remAdj_aux vis c hc g.adjacency

/-! ### One loop iteration preserves the invariant -/

theorem runInv_step (g : Graph) (start : Node) (st st' : DState)
    (hI : RunInv g start st) (hstep : dijkstraStep g st = .next st') :
    RunInv g start st' ∧
    (∀ v ∈ st.visited, dget st'.dist v = dget st.dist v) ∧
    (∀ v, dgetD st'.dist v ⊤ ≤ dgetD st.dist v ⊤) ∧
    (∀ v ∈ st.visited, v ∈ st'.visited) ∧
    stMeasure g st' < stMeasure g st := by
  unfold dijkstraStep at hstep
  cases hpop : heappop st.heap with
  | none => rw [hpop] at hstep; exact absurd hstep (by simp)
  | some pr =>
    obtain ⟨item, heap'⟩ := pr
    rw [hpop] at hstep
    dsimp only at hstep
    have hlen := heappop_length st.heap item heap' hpop
    have hperm := heappop_perm st.heap item heap' hpop
    have hinv' := heappop_heapInv st.heap item heap' hI.hheap hpop
    by_cases hvis : item.node ∈ st.visited
    · rw [if_pos hvis] at hstep
      injection hstep with hst
      subst hst
      refine ⟨⟨hinv', hI.hdistkeys, hI.hprevkeys, hI.hstart0, hI.hprevstart, ?_, hI.hdistfin,
        ?_, ?_, hI.hvshort, hI.hvfin, hI.hclosure, hI.hprevsome, hI.hprevidx, hI.hprevnone,
        hI.hprevstartkey, hI.hvisnodup, hI.hvismem, hI.hdistlen, hI.hprevlen⟩,
        fun v _ => rfl, fun v => le_refl _, fun v hv => hv, ?_⟩
      · intro it hit
        exact hI.hitems it (hperm.mem_iff.mpr (List.mem_cons_of_mem _ hit))
      · intro it hit
        exact hI.hupper it (hperm.mem_iff.mpr (List.mem_cons_of_mem _ hit))
      · intro v c hnv hv
        obtain ⟨it, hit, hnode, hdist⟩ := hI.hcover v c hnv hv
        have hmm : it ∈ item :: heap' := hperm.mem_iff.mp hit
        rcases List.mem_cons.mp hmm with rfl | hmem
        · exact absurd (hnode ▸ hvis) hnv
        · exact ⟨it, hmem, hnode, hdist⟩
      · show heap'.length + remAdj g st.visited < st.heap.length + remAdj g st.visited
        omega
    · rw [if_neg hvis] at hstep
      cases hrel : relaxFold item.node (g.adjGet item.node) st.dist st.prev heap' with
      | none => rw [hrel] at hstep; exact absurd hstep (by simp)
      | some tr =>
        obtain ⟨d', p', h''⟩ := tr
        rw [hrel] at hstep
        dsimp only at hstep
        injection hstep with hst
        subst hst
        obtain ⟨heqd, hshort⟩ := runInv_pop_visit g start st item heap' hI hpop hvis
        obtain ⟨ci, hpathi, hdi⟩ := hI.hitems item (heappop_mem st.heap item heap' hpop)
        have hsub' : ∀ v, v ∈ st.visited → v ∈ st.visited ++ [item.node] :=
          fun v hv => List.mem_append_left _ hv
        have hcurmem : item.node ∈ st.visited ++ [item.node] :=
          List.mem_append_right _ (List.mem_singleton_self _)
        have hF : FoldInv g start item.node (g.adjGet item.node)
            (st.visited ++ [item.node]) st.dist st.prev heap' := by
          constructor
          · exact hinv'
          · exact hI.hdistkeys
          · exact hI.hprevkeys
          · exact hI.hstart0
          · exact hI.hprevstart
          · intro it hit
            exact hI.hitems it (hperm.mem_iff.mpr (List.mem_cons_of_mem _ hit))
          · exact hI.hdistfin
          · intro it hit
            exact hI.hupper it (hperm.mem_iff.mpr (List.mem_cons_of_mem _ hit))
          · intro v c hnv hv
            have hnv2 : v ∉ st.visited := fun hc => hnv (hsub' v hc)
            have hne : v ≠ item.node := fun hc => hnv (hc ▸ hcurmem)
            obtain ⟨it, hit, hnode, hdist⟩ := hI.hcover v c hnv2 hv
            have hmm : it ∈ item :: heap' := hperm.mem_iff.mp hit
            rcases List.mem_cons.mp hmm with rfl | hmem
            · exact absurd hnode.symm hne
            · exact ⟨it, hmem, hnode, hdist⟩
          · intro v hv
            rcases List.mem_append.mp hv with hv1 | hv1
            · exact hI.hvshort v hv1
            · rw [List.mem_singleton] at hv1
              subst hv1
              rw [dgetD_eq _ _ _ _ heqd]
              exact hshort
          · intro v hv
            rcases List.mem_append.mp hv with hv1 | hv1
            · exact hI.hvfin v hv1
            · rw [List.mem_singleton] at hv1
              subst hv1
              exact ⟨ci, by rw [heqd, hdi]⟩
          · intro u hu v w hvw
            rcases List.mem_append.mp hu with hu1 | hu1
            · exact Or.inr (hI.hclosure u hu1 v w hvw)
            · rw [List.mem_singleton] at hu1
              subst hu1
              exact Or.inl ⟨rfl, hvw⟩
          · intro v u hv
            obtain ⟨hu, w, hw, heq⟩ := hI.hprevsome v u hv
            exact ⟨hsub' u hu, w, hw, heq⟩
          · intro v u hv hvv
            obtain ⟨hu, _, _, _⟩ := hI.hprevsome v u hv
            rcases List.mem_append.mp hvv with hv1 | hv1
            · rw [indexOf_append_mem _ _ _ hu, indexOf_append_mem _ _ _ hv1]
              exact hI.hprevidx v u hv hv1
            · rw [List.mem_singleton] at hv1
              subst hv1
              rw [indexOf_append_mem _ _ _ hu, indexOf_append_self _ _ hvis]
              exact indexOf_lt_len _ _ hu
          · exact hI.hprevnone
          · exact hI.hprevstartkey
          · rw [List.nodup_append]
            exact ⟨hI.hvisnodup, List.nodup_singleton _, by simpa using hvis⟩
          · intro v hv
            rcases List.mem_append.mp hv with hv1 | hv1
            · exact hI.hvismem v hv1
            · rw [List.mem_singleton] at hv1
              subst hv1
              rw [heqd]
              rfl
          · exact hI.hdistlen
          · exact hI.hprevlen
          · intro e he
            exact he
          · exact hcurmem
        obtain ⟨hRI, hcur', hvis2, hmono', hlen'⟩ :=
          relaxFold_spec g start item.node (st.visited ++ [item.node])
            (g.adjGet item.node) st.dist st.prev heap' d' p' h'' hF hrel
        refine ⟨hRI, ?_, hmono', ?_, ?_⟩
        · intro v hv
          exact hvis2 v (hsub' v hv)
        · intro v hv
          exact hsub' v hv
        · show h''.length + remAdj g (st.visited ++ [item.node]) <
            st.heap.length + remAdj g st.visited
          have hrem := remAdj_append g st.visited item.node hvis
          omega

/-! ### Reachable states of a run -/

theorem reaches_head (g : Graph) {st st' S : DState}
    (hstep : dijkstraStep g st = .next st') (hR : Reaches g st' S) :
    Reaches g st S := by
  induction hR with
  | refl => exact Reaches.tail (Reaches.refl st) hstep
  | tail hR' hs ih => exact Reaches.tail ih hs

theorem runInv_reaches_facts (g : Graph) (start : Node) (S S' : DState)
    (hI : RunInv g start S) (hR : Reaches g S S') :
    RunInv g start S' ∧
    (∀ v ∈ S.visited, dget S'.dist v = dget S.dist v) ∧
    (∀ v, dgetD S'.dist v ⊤ ≤ dgetD S.dist v ⊤) ∧
    (∀ v ∈ S.visited, v ∈ S'.visited) := by
  induction hR with
  | refl => exact ⟨hI, fun v _ => rfl, fun v => le_refl _, fun v hv => hv⟩
  | tail hR' hs ih =>
    obtain ⟨hI', hfix, hmono, hsub⟩ := ih
    obtain ⟨hI'', hfix', hmono', hsub', _⟩ := runInv_step g start _ _ hI' hs
    refine ⟨hI'', ?_, ?_, ?_⟩
    · intro v hv
      rw [hfix' v (hsub v hv), hfix v hv]
    · intro v
      exact le_trans (hmono' v) (hmono v)
    · intro v hv
      exact hsub' v (hsub v hv)

/-- C1: in a run of `Graph.dijkstra g start` on non-negative integer weights
(the embedding's weight type), over any pair of reachable states `S`, `S'`
with `S'` later than `S`: every recorded distance is monotonically
non-increasing; a node already visited at `S` has its recorded distance
unchanged at every later state (it is never relaxed again); and a visited
node's recorded distance is the true shortest-path distance from `start`. -/
theorem dijkstra_visited_final_and_shortest (g : Graph) (start : Node) (S S' : DState)
    (h1 : Reaches g (initState g start) S) (h2 : Reaches g S S') :
    (∀ v, dgetD S'.dist v ⊤ ≤ dgetD S.dist v ⊤) ∧
    (∀ v ∈ S.visited, dget S'.dist v = dget S.dist v) ∧
    (∀ v ∈ S.visited, IsShortestDist g start v (dgetD S.dist v ⊤)) := by
  have hIS := (runInv_reaches_facts g start _ S (runInv_init g start) h1).1
  obtain ⟨_, hfix, hmono, _⟩ := runInv_reaches_facts g start S S' hIS h2
  exact ⟨hmono, hfix, hIS.hvshort⟩

/-- Witness for C1 at the demo graph with the trivial reachability pair. -/
theorem dijkstra_visited_final_and_shortest_witness :
    (∀ v, dgetD (initState demoGraph "A").dist v ⊤ ≤
        dgetD (initState demoGraph "A").dist v ⊤) ∧
    (∀ v ∈ (initState demoGraph "A").visited,
        dget (initState demoGraph "A").dist v = dget (initState demoGraph "A").dist v) ∧
    (∀ v ∈ (initState demoGraph "A").visited,
        IsShortestDist demoGraph "A" v (dgetD (initState demoGraph "A").dist v ⊤)) :=
  dijkstra_visited_final_and_shortest demoGraph "A" _ _
    (Reaches.refl _) (Reaches.refl _)

/-! ### Loop-level facts: the returned tables come from a reachable final state -/

theorem dget_mem {α : Type} :
    ∀ (d : List (Node × α)) (k : Node) (v : α), dget d k = some v → (k, v) ∈ d
  | [], k, v, h => by simp [dget] at h
  | (k', v') :: t, k, v, h => by
    by_cases hk : k' = k
    · subst hk
      simp only [dget, if_pos rfl] at h
      injection h with h2
      rw [← h2]
      exact List.mem_cons_self _ _
    · simp only [dget, if_neg hk] at h
      exact List.mem_cons_of_mem _ (dget_mem t k v h)

theorem closed_adjGet (g : Graph) (hC : g.Closed) (u : Node) (e : Node × Nat)
    (he : e ∈ g.adjGet u) : (dget g.adjacency e.1).isSome := by
  unfold Graph.adjGet at he
  cases hh : dget g.adjacency u with
  | none => rw [hh] at he; simp at he
  | some l =>
    rw [hh] at he
    simp only [Option.getD_some] at he
    exact hC (u, l) (dget_mem g.adjacency u l hh) e he

theorem closed_path_key {g : Graph} (hC : g.Closed) :
    ∀ {s t : Node} {c : Nat}, IsPath g s t c →
      t = s ∨ (dget g.adjacency t).isSome := by
  intro s t c hp
  induction hp with
  | nil u => exact Or.inl rfl
  | cons he hp' ih =>
    rename_i u v t' w c'
    right
    rcases ih with h1 | h1
    · rw [h1]
      exact closed_adjGet g hC u (v, w) he
    · exact h1

theorem relaxFold_isSome (current : Node) :
    ∀ (lst : List (Node × Nat)) (dist : List (Node × DistVal))
      (prev : List (Node × Option Node)) (heap : List HeapItem),
      (dget dist current).isSome →
      (∀ e ∈ lst, (dget dist e.1).isSome) →
      (relaxFold current lst dist prev heap).isSome := by
  intro lst
  induction lst with
  | nil => intro dist prev heap _ _; simp [relaxFold]
  | cons e rest ih =>
    obtain ⟨neighbor, weight⟩ := e
    intro dist prev heap hc hall
    cases hdc : dget dist current with
    | none => rw [hdc] at hc; exact absurd hc (by simp)
    | some dc =>
      cases hdn : dget dist neighbor with
      | none =>
        have h2 := hall (neighbor, weight) (List.mem_cons_self _ _)
        rw [hdn] at h2
        exact absurd h2 (by simp)
      | some dn =>
        simp only [relaxFold, hdc, hdn]
        by_cases hlt : dc + (weight : DistVal) < dn
        · rw [if_pos hlt]
          apply ih
          · rw [dget_isSome_dset]
            exact Or.inl hc
          · intro e2 he2
            rw [dget_isSome_dset]
            exact Or.inl (hall e2 (List.mem_cons_of_mem _ he2))
        · rw [if_neg hlt]
          exact ih dist prev heap hc
            (fun e2 he2 => hall e2 (List.mem_cons_of_mem _ he2))

theorem dijkstraStep_done (g : Graph) (st : DState)
    (d : List (Node × DistVal)) (p : List (Node × Option Node))
    (h : dijkstraStep g st = .done d p) :
    st.heap = [] ∧ d = st.dist ∧ p = st.prev := by
  unfold dijkstraStep at h
  cases hpop : heappop st.heap with
  | none =>
    rw [hpop] at h
    dsimp only at h
    injection h with h1 h2
    exact ⟨(heappop_eq_none st.heap).mp hpop, h1.symm, h2.symm⟩
  | some pr =>
    obtain ⟨item, heap'⟩ := pr
    rw [hpop] at h
    dsimp only at h
    by_cases hvis : item.node ∈ st.visited
    · rw [if_pos hvis] at h
      exact absurd h (by simp)
    · rw [if_neg hvis] at h
      cases hr : relaxFold item.node (g.adjGet item.node) st.dist st.prev heap' with
      | none => rw [hr] at h; exact absurd h (by simp)
      | some t =>
        obtain ⟨a, b, c⟩ := t
        rw [hr] at h
        exact absurd h (by simp)

theorem dijkstraStep_no_err (g : Graph) (start : Node) (st : DState)
    (hC : g.Closed) (hI : RunInv g start st) : dijkstraStep g st ≠ .err := by
  intro h
  unfold dijkstraStep at h
  cases hpop : heappop st.heap with
  | none =>
    rw [hpop] at h
    exact absurd h (by simp)
  | some pr =>
    obtain ⟨item, heap'⟩ := pr
    rw [hpop] at h
    dsimp only at h
    by_cases hvis : item.node ∈ st.visited
    · rw [if_pos hvis] at h
      exact absurd h (by simp)
    · rw [if_neg hvis] at h
      have hmem := heappop_mem st.heap item heap' hpop
      obtain ⟨c, hpath, _⟩ := hI.hitems item hmem
      have hkey : (dget st.dist item.node).isSome := by
        rcases closed_path_key hC hpath with h1 | h1
        · rw [h1, hI.hstart0]; rfl
        · exact (hI.hdistkeys item.node).mpr (Or.inl h1)
      have hall : ∀ e ∈ g.adjGet item.node, (dget st.dist e.1).isSome := by
        intro e he
        exact (hI.hdistkeys e.1).mpr (Or.inl (closed_adjGet g hC item.node e he))
      have hsome :=
        relaxFold_isSome item.node (g.adjGet item.node) st.dist st.prev heap' hkey hall
      cases hr : relaxFold item.node (g.adjGet item.node) st.dist st.prev heap' with
      | none => rw [hr] at hsome; exact absurd hsome (by simp)
      | some t =>
        obtain ⟨a, b, c2⟩ := t
        rw [hr] at h
        exact absurd h (by simp)

theorem dijkstraLoop_ok_reaches (g : Graph) :
    ∀ (fuel : Nat) (st : DState) (d : List (Node × DistVal))
      (p : List (Node × Option Node)),
      dijkstraLoop g fuel st = .ok (d, p) →
      ∃ S : DState, Reaches g st S ∧ S.heap = [] ∧ S.dist = d ∧ S.prev = p := by
  intro fuel
  induction fuel with
  | zero => intro st d p h; exact absurd h (by simp [dijkstraLoop])
  | succ n ih =>
    intro st d p h
    simp only [dijkstraLoop] at h
    cases hstep : dijkstraStep g st with
    | done d0 p0 =>
      rw [hstep] at h
      dsimp only at h
      injection h with h1
      rw [Prod.mk.injEq] at h1
      obtain ⟨hd, hp⟩ := h1
      obtain ⟨hheap, hdd, hpp⟩ := dijkstraStep_done g st d0 p0 hstep
      exact ⟨st, Reaches.refl st, hheap, hdd.symm.trans hd, hpp.symm.trans hp⟩
    | err =>
      rw [hstep] at h
      exact absurd h (by simp)
    | next st' =>
      rw [hstep] at h
      dsimp only at h
      obtain ⟨S, hR, hh, h1, h2⟩ := ih st' d p h
      exact ⟨S, reaches_head g hstep hR, hh, h1, h2⟩

theorem dijkstra_final (g : Graph) (start : Node)
    (d : List (Node × DistVal)) (p : List (Node × Option Node))
    (h : g.dijkstra start = .ok (d, p)) :
    ∃ S : DState, Reaches g (initState g start) S ∧ RunInv g start S ∧
      S.heap = [] ∧ S.dist = d ∧ S.prev = p := by
  obtain ⟨S, hR, hh, h1, h2⟩ := dijkstraLoop_ok_reaches g _ _ d p h
  exact ⟨S, hR, (runInv_reaches_facts g start _ S (runInv_init g start) hR).1, hh, h1, h2⟩

theorem dijkstraLoop_no_err (g : Graph) (start : Node) (hC : g.Closed) :
    ∀ (fuel : Nat) (st : DState), RunInv g start st →
      dijkstraLoop g fuel st ≠ .keyError := by
  intro fuel
  induction fuel with
  | zero => intro st _ h; exact absurd h (by simp [dijkstraLoop])
  | succ n ih =>
    intro st hI h
    simp only [dijkstraLoop] at h
    cases hstep : dijkstraStep g st with
    | done d p =>
      rw [hstep] at h
      exact absurd h (by simp)
    | err => exact dijkstraStep_no_err g start st hC hI hstep
    | next st' =>
      rw [hstep] at h
      dsimp only at h
      exact ih st' (runInv_step g start st st' hI hstep).1 h

theorem dijkstraLoop_no_fuelOut (g : Graph) (start : Node) :
    ∀ (fuel : Nat) (st : DState), RunInv g start st → stMeasure g st < fuel →
      dijkstraLoop g fuel st ≠ .fuelOut := by
  intro fuel
  induction fuel with
  | zero => intro st _ hm; exact absurd hm (Nat.not_lt_zero _)
  | succ n ih =>
    intro st hI hm h
    simp only [dijkstraLoop] at h
    cases hstep : dijkstraStep g st with
    | done d p =>
      rw [hstep] at h
      exact absurd h (by simp)
    | err =>
      rw [hstep] at h
      exact absurd h (by simp)
    | next st' =>
      rw [hstep] at h
      dsimp only at h
      obtain ⟨hI', _, _, _, hdec⟩ := runInv_step g start st st' hI hstep
      exact ih st' hI' (by omega) h

theorem remAdj_nil (g : Graph) : remAdj g [] = adjSize g := by
  unfold remAdj adjSize
  congr 1
  congr 1
  apply List.filter_eq_self.mpr
  intro a _
  simp

theorem initState_measure (g : Graph) (start : Node) :
    stMeasure g (initState g start) < adjSize g + 2 := by
  unfold stMeasure
  rw [show (initState g start).visited = [] from rfl, remAdj_nil]
  rw [show (initState g start).heap = [⟨0, start⟩] from rfl]
  simp only [List.length_singleton]
  omega

theorem dijkstra_closed_ok (g : Graph) (start : Node) (hC : g.Closed) :
    ∃ d p, g.dijkstra start = .ok (d, p) := by
  unfold Graph.dijkstra
  cases hres : dijkstraLoop g (adjSize g + 2) (initState g start) with
  | ok pr =>
    obtain ⟨d, p⟩ := pr
    exact ⟨d, p, rfl⟩
  | keyError =>
    exact absurd hres
      (dijkstraLoop_no_err g start hC (adjSize g + 2) (initState g start)
        (runInv_init g start))
  | fuelOut =>
    exact absurd hres
      (dijkstraLoop_no_fuelOut g start (adjSize g + 2) (initState g start)
        (runInv_init g start) (initState_measure g start))

/-- C2 (amended): on a graph all of whose neighbor targets are themselves
adjacency keys (e.g. any graph built only with `bidirectional=True`),
`dijkstra(start)` terminates without raising for every start node, and the
returned distance table has an entry exactly for every adjacency key plus
`start` (with `distance[start] = 0`), while the predecessor table has an
entry exactly for every adjacency key. -/
theorem dijkstra_closed_total (g : Graph) (start : Node) (hC : g.Closed) :
    ∃ d p, g.dijkstra start = .ok (d, p) ∧
      (∀ v, (dget d v).isSome ↔ ((dget g.adjacency v).isSome ∨ v = start)) ∧
      (∀ v, (dget p v).isSome ↔ (dget g.adjacency v).isSome) ∧
      dget d start = some ((0 : Nat) : DistVal) := by
  obtain ⟨d, p, hok⟩ := dijkstra_closed_ok g start hC
  obtain ⟨S, _, hI, _, hd, hp⟩ := dijkstra_final g start d p hok
  subst hd
  subst hp
  refine ⟨_, _, hok, hI.hdistkeys, hI.hprevkeys, ?_⟩
  rw [hI.hstart0, Nat.cast_zero]

/-- Witness for C2 (amended) at the demo graph, which is Closed since all
its edges are bidirectional. -/
theorem dijkstra_closed_total_witness :
    demoGraph.Closed ∧
    ∃ d p, demoGraph.dijkstra "A" = .ok (d, p) ∧
      (∀ v, (dget d v).isSome ↔ ((dget demoGraph.adjacency v).isSome ∨ v = "A")) ∧
      (∀ v, (dget p v).isSome ↔ (dget demoGraph.adjacency v).isSome) ∧
      dget d "A" = some ((0 : Nat) : DistVal) :=
  ⟨by unfold Graph.Closed; decide,
    dijkstra_closed_total demoGraph "A" (by unfold Graph.Closed; decide)⟩

/-- C6 (amended): whenever `dijkstra(start)` returns tables `(d, p)`,
`d[start] = 0` holds; but `p` maps `start` to `none` only when `start` is
an adjacency key — otherwise `p` has no entry for `start` at all. -/
theorem dijkstra_start_entries (g : Graph) (start : Node)
    (d : List (Node × DistVal)) (p : List (Node × Option Node))
    (h : g.dijkstra start = .ok (d, p)) :
    dget d start = some ((0 : Nat) : DistVal) ∧
    dget p start = (if (dget g.adjacency start).isSome then some none else none) := by
  obtain ⟨S, _, hI, _, hd, hp⟩ := dijkstra_final g start d p h
  subst hd
  subst hp
  refine ⟨?_, hI.hprevstart⟩
  rw [hI.hstart0, Nat.cast_zero]

/-- Witness for C6 (amended) at the demo graph. -/
theorem dijkstra_start_entries_witness :
    dget demoDistTable "A" = some ((0 : Nat) : DistVal) ∧
    dget demoPrevTable "A" =
      (if (dget demoGraph.adjacency "A").isSome then some none else none) :=
  dijkstra_start_entries demoGraph "A" demoDistTable demoPrevTable (by decide)

/-- C10: on a graph all of whose neighbor targets are adjacency keys
(e.g. built only with `bidirectional=True`, including the empty graph),
querying `shortest_path(s, s)` for a node `s` that is not an adjacency key
raises `KeyError` (at `previous_nodes[s]`): `dijkstra(s)` succeeds and
records distance 0 for `s`, so the walk runs and immediately fails,
rather than returning `[s]` or the empty sequence. -/
theorem shortest_path_nonkey_self_keyError (g : Graph) (s : Node)
    (hC : g.Closed) (hs : dget g.adjacency s = none) :
    g.shortest_path s s = .keyError := by
  obtain ⟨d, p, hok, hdk, hpk, hd0⟩ := dijkstra_closed_total g s hC
  have hps : dget p s = none := by
    cases hh : dget p s with
    | none => rfl
    | some x =>
      have h2 : (dget p s).isSome := by rw [hh]; rfl
      rw [hpk s, hs] at h2
      exact absurd h2 (by simp)
  have hwk : walkAux (p.length + 1) p (some s) [] = .keyError := by
    simp only [walkAux, hps]
  unfold Graph.shortest_path
  rw [hok]
  dsimp only
  rw [if_neg (by rw [dgetD_eq d s ⊤ _ hd0]; exact distval_coe_ne_top 0), hwk]

/-- Witness for C10: the demo graph is Closed, and "Z" is not one of its
adjacency keys. -/
theorem shortest_path_nonkey_self_keyError_witness :
    demoGraph.Closed ∧ dget demoGraph.adjacency "Z" = none ∧
    demoGraph.shortest_path "Z" "Z" = .keyError :=
  ⟨by unfold Graph.Closed; decide, by decide,
    shortest_path_nonkey_self_keyError demoGraph "Z"
      (by unfold Graph.Closed; decide) (by decide)⟩

/-! ### Final-state facts and the backward predecessor walk -/

theorem final_visited (g : Graph) (start : Node) (S : DState)
    (hI : RunInv g start S) (hheap : S.heap = []) (v : Node) (c : Nat)
    (hc : dget S.dist v = some (c : DistVal)) : v ∈ S.visited := by
  by_contra hnv
  obtain ⟨it, hit, _⟩ := hI.hcover v c hnv hc
  rw [hheap] at hit
  exact absurd hit (List.not_mem_nil it)

theorem visited_le_prev_length (g : Graph) (start : Node) (S : DState)
    (hI : RunInv g start S) (hstartkey : (dget g.adjacency start).isSome) :
    S.visited.length ≤ S.prev.length := by
  have hsub : S.visited ⊆ dkeys S.prev := by
    intro v hv
    apply dget_mem_keys
    rcases (hI.hdistkeys v).mp (hI.hvismem v hv) with h2 | h2
    · exact (hI.hprevkeys v).mpr h2
    · rw [h2]
      exact (hI.hprevkeys start).mpr hstartkey
  have hle := (List.subperm_of_subset hI.hvisnodup hsub).length_le
  simpa [dkeys] using hle

theorem walk_from_visited (g : Graph) (start : Node) (S : DState)
    (hI : RunInv g start S) (hstartkey : (dget g.adjacency start).isSome) :
    ∀ (n : Nat), ∀ v ∈ S.visited, S.visited.indexOf v ≤ n →
      ∀ (c : Nat), dget S.dist v = some (c : DistVal) →
      ∀ (acc : List Node) (fuel : Nat), S.visited.indexOf v < fuel →
      ∃ bl : List Node, walkAux fuel S.prev (some v) acc = .ok (acc ++ bl) ∧
        bl.head? = some v ∧ bl.getLast? = some start ∧
        IsPathList g bl.reverse c := by
  intro n
  induction n using Nat.strong_induction_on with
  | _ n ih =>
    intro v hv hidx c hc acc fuel hfuel
    obtain ⟨f, rfl⟩ : ∃ f, fuel = f + 1 := ⟨fuel - 1, by omega⟩
    cases hpv : dget S.prev v with
    | none =>
      exfalso
      have hsome : (dget S.prev v).isSome := by
        have h1 : (dget S.dist v).isSome := by rw [hc]; rfl
        rcases (hI.hdistkeys v).mp h1 with h2 | h2
        · exact (hI.hprevkeys v).mpr h2
        · rw [h2]
          exact (hI.hprevkeys start).mpr hstartkey
      rw [hpv] at hsome
      exact absurd hsome (by simp)
    | some o =>
      cases o with
      | none =>
        by_cases hvs : v = start
        · have hc0 : c = 0 := by
            have h2 : some ((c : Nat) : DistVal) = some (0 : DistVal) := by
              rw [← hc, hvs, hI.hstart0]
            injection h2 with h3
            exact_mod_cast h3
          refine ⟨[v], ?_, rfl, ?_, ?_⟩
          · simp only [walkAux, hpv]
          · simp [hvs]
          · rw [hc0, List.reverse_singleton]
            exact IsPathList.single v
        · exfalso
          have hdt := hI.hprevnone v hvs hpv
          rw [hc] at hdt
          injection hdt with hdt2
          exact absurd hdt2 (distval_coe_ne_top c)
      | some u =>
        obtain ⟨huvis, w, hedge, hsum⟩ := hI.hprevsome v u hpv
        have hidxu := hI.hprevidx v u hpv hv
        obtain ⟨cu, hcu⟩ := hI.hvfin u huvis
        have hC1 : dgetD S.dist v ⊤ = (c : DistVal) := dgetD_eq _ _ _ _ hc
        have hC2 : dgetD S.dist u ⊤ = (cu : DistVal) := dgetD_eq _ _ _ _ hcu
        rw [hC1, hC2] at hsum
        have hco : ((cu : DistVal) + (w : DistVal)) = ((cu + w : Nat) : DistVal) := by
          push_cast
          rfl
        rw [hco] at hsum
        have hcw : c = cu + w := by exact_mod_cast hsum
        obtain ⟨bl, hwalk, hhead, hlast, hpl⟩ :=
          ih (S.visited.indexOf u) (by omega) u huvis (le_refl _)
            cu hcu (acc ++ [v]) f (by omega)
        refine ⟨v :: bl, ?_, rfl, ?_, ?_⟩
        · simp only [walkAux, hpv]
          rw [hwalk, List.append_assoc, List.singleton_append]
        · cases bl with
          | nil => exact absurd hhead (by simp)
          | cons b bs =>
            rw [List.getLast?_cons_cons]
            exact hlast
        · rw [List.reverse_cons, hcw]
          have hlast2 : bl.reverse.getLast? = some u := by
            rw [List.getLast?_reverse]
            exact hhead
          exact hpl.append_edge hlast2 hedge

/-- C9 (amended): whenever `dijkstra(start)` returns tables `(d, p)`, the
backward walk over `p` from any node terminates with fuel `p.length + 1`
(never fuel-out: every predecessor chain is acyclic, strictly descending
in visit order); and when `start` is an adjacency key, from every node `v`
with finite recorded distance the walk succeeds and its chain starts at
`v` and ends at `start`.  (Reaching `none` from every node fails in
general: a node without a `p` entry raises `KeyError`.) -/
theorem dijkstra_prev_walk_terminates (g : Graph) (start : Node)
    (d : List (Node × DistVal)) (p : List (Node × Option Node))
    (h : g.dijkstra start = .ok (d, p)) :
    (∀ (v : Node) (acc : List Node),
      walkAux (p.length + 1) p (some v) acc ≠ .fuelOut) ∧
    ((dget g.adjacency start).isSome → ∀ (v : Node) (c : Nat),
      dget d v = some (c : DistVal) →
      ∃ bl : List Node, walkAux (p.length + 1) p (some v) [] = .ok bl ∧
        bl.head? = some v ∧ bl.getLast? = some start) := by
  obtain ⟨S, _, hI, hheap, hd, hp⟩ := dijkstra_final g start d p h
  subst hd
  subst hp
  constructor
  · intro v acc hfo
    cases hpv : dget S.prev v with
    | none =>
      rw [show walkAux (S.prev.length + 1) S.prev (some v) acc = .keyError from by
        simp only [walkAux, hpv]] at hfo
      exact absurd hfo (by simp)
    | some o =>
      cases o with
      | none =>
        rw [show walkAux (S.prev.length + 1) S.prev (some v) acc =
            .ok (acc ++ [v]) from by simp only [walkAux, hpv]] at hfo
        exact absurd hfo (by simp)
      | some u =>
        have hstartkey := hI.hprevstartkey v u hpv
        obtain ⟨huvis, _, _, _⟩ := hI.hprevsome v u hpv
        obtain ⟨cu, hcu⟩ := hI.hvfin u huvis
        have hidxu : S.visited.indexOf u < S.visited.length :=
          indexOf_lt_len _ _ huvis
        have hlen := visited_le_prev_length g start S hI hstartkey
        obtain ⟨bl, hwalk, _, _, _⟩ := walk_from_visited g start S hI hstartkey
          (S.visited.indexOf u) u huvis (le_refl _) cu hcu (acc ++ [v])
          S.prev.length (by omega)
        rw [show walkAux (S.prev.length + 1) S.prev (some v) acc =
            walkAux S.prev.length S.prev (some u) (acc ++ [v]) from by
          simp only [walkAux, hpv]] at hfo
        rw [hwalk] at hfo
        exact absurd hfo (by simp)
  · intro hstartkey v c hc
    have hvvis := final_visited g start S hI hheap v c hc
    have hidxv : S.visited.indexOf v < S.visited.length := indexOf_lt_len _ _ hvvis
    have hlen := visited_le_prev_length g start S hI hstartkey
    obtain ⟨bl, hwalk, hhead, hlast, _⟩ := walk_from_visited g start S hI hstartkey
      (S.visited.indexOf v) v hvvis (le_refl _) c hc [] (S.prev.length + 1) (by omega)
    refine ⟨bl, ?_, hhead, hlast⟩
    rw [hwalk, List.nil_append]

/-- Witness for C9 (amended) at the demo run. -/
theorem dijkstra_prev_walk_terminates_witness :
    (∀ (v : Node) (acc : List Node),
      walkAux (demoPrevTable.length + 1) demoPrevTable (some v) acc ≠ .fuelOut) ∧
    ((dget demoGraph.adjacency "A").isSome → ∀ (v : Node) (c : Nat),
      dget demoDistTable v = some (c : DistVal) →
      ∃ bl : List Node,
        walkAux (demoPrevTable.length + 1) demoPrevTable (some v) [] = .ok bl ∧
        bl.head? = some v ∧ bl.getLast? = some "A") :=
  dijkstra_prev_walk_terminates demoGraph "A" demoDistTable demoPrevTable (by decide)

/-- C4 (amended): whenever `dijkstra(start)` returns tables `(d, p)`,
`start` is an adjacency key, and the recorded distance of `e` is a finite
value `c`, `shortest_path(start, e)` returns a node sequence whose first
element is `start`, whose last element is `e`, whose consecutive pairs are
stored edges with weights summing to `c`; when additionally `start = e`
the sequence is exactly `[start]`.  (Without the adjacency-key condition on
`start` the call can raise `KeyError` even for trivially reachable `e`.) -/
theorem shortest_path_reachable_correct (g : Graph) (start e : Node)
    (d : List (Node × DistVal)) (p : List (Node × Option Node)) (c : Nat)
    (hok : g.dijkstra start = .ok (d, p))
    (hstartkey : (dget g.adjacency start).isSome)
    (hce : dget d e = some (c : DistVal)) :
    ∃ l : List Node, g.shortest_path start e = .ok l ∧ l.head? = some start ∧
      l.getLast? = some e ∧ IsPathList g l c ∧ (start = e → l = [start]) := by
  obtain ⟨S, _, hI, hheap, hd, hp⟩ := dijkstra_final g start d p hok
  subst hd
  subst hp
  have hevis := final_visited g start S hI hheap e c hce
  have hidxe : S.visited.indexOf e < S.visited.length := indexOf_lt_len _ _ hevis
  have hlen := visited_le_prev_length g start S hI hstartkey
  obtain ⟨bl, hwalk, hhead, hlast, hpl⟩ := walk_from_visited g start S hI hstartkey
    (S.visited.indexOf e) e hevis (le_refl _) c hce [] (S.prev.length + 1) (by omega)
  rw [List.nil_append] at hwalk
  refine ⟨bl.reverse, ?_, ?_, ?_, hpl, ?_⟩
  · unfold Graph.shortest_path
    rw [hok]
    dsimp only
    rw [if_neg (by rw [dgetD_eq S.dist e ⊤ _ hce]; exact distval_coe_ne_top c), hwalk]
  · rw [List.head?_reverse]
    exact hlast
  · rw [List.getLast?_reverse]
    exact hhead
  · intro hse
    have hps : dget S.prev start = some none := by
      rw [hI.hprevstart, if_pos hstartkey]
    have hdirect : walkAux (S.prev.length + 1) S.prev (some start) [] = .ok [start] := by
      simp only [walkAux, hps, List.nil_append]
    rw [← hse] at hwalk
    have h3 : RunResult.ok [start] = RunResult.ok bl := hdirect.symm.trans hwalk
    injection h3 with h4
    rw [← h4]
    rfl

/-- Witness for C4 (amended) at the demo run: the shortest path A→D. -/
theorem shortest_path_reachable_correct_witness :
    ∃ l : List Node, demoGraph.shortest_path "A" "D" = .ok l ∧
      l.head? = some "A" ∧ l.getLast? = some "D" ∧ IsPathList demoGraph l 9 ∧
      ("A" = "D" → l = ["A"]) :=
  shortest_path_reachable_correct demoGraph "A" "D" demoDistTable demoPrevTable 9
    (by decide) (by decide) (by decide)
